import Mathlib

/-!
Verification of the obstacle-aware path router in
`src/_sandbox_/pathfinder_final.py`.

The embedding translates the Python source into Lean over exact rational
arithmetic: points are pairs of rationals, the segment-intersection
predicate `overlapping` is a direct transcription of the source (including
its branch structure and interval tests), the obstacle clearance test
`no_obstacles`, the direct/elbow router `getpts_simple`, the grid A*
search `getpts_astar` (with an explicit fuel parameter standing for the
unbounded Python `while` loop), and the route composer `makePts`
modelling `HybridPathfinderNew.make`'s construction of `self._pts`.
-/

namespace Pathfinder

/-- A 2-D point (or vector): a pair of rational coordinates. -/
abbrev Pt := ℚ × ℚ

/-- Dot product `np.dot`. -/
def pdot (a b : Pt) : ℚ := a.1 * b.1 + a.2 * b.2

/-- Componentwise subtraction of coordinate pairs. -/
def psub (a b : Pt) : Pt := (a.1 - b.1, a.2 - b.2)

/-- Componentwise addition of coordinate pairs. -/
def padd (a b : Pt) : Pt := (a.1 + b.1, a.2 + b.2)

/-- Scalar multiple of a coordinate pair. -/
def pscale (c : ℚ) (a : Pt) : Pt := (c * a.1, c * a.2)

/-- `sum(abs(p - q))`: the Manhattan distance between two points. -/
def manhattan (p q : Pt) : ℚ := |p.1 - q.1| + |p.2 - q.2|

/-- Transcription of `overlapping(a, b, c, d)` (pathfinder_final.py lines
17-69): whether segment `ab` intersects or overlaps segment `cd`.  The
source's exact branch structure is kept, including the comparison
`max(y0_start, y1_end)` on line 29 and `max(x0_start, x1_end)` on line 54
(each mixing the two segments' endpoints). -/
def overlapping (a b c d : Pt) : Bool :=
  let x0s := a.1; let y0s := a.2
  let x0e := b.1; let y0e := b.2
  let x1s := c.1; let y1s := c.2
  let x1e := d.1; let y1e := d.2
  if x0s = x0e ∧ x1s = x1e then
    -- 2 vertical lines intersect only if they completely overlap at some point(s)
    if x0e = x1s then
      decide (¬ (min y0s y0e > max y1s y1e ∨ min y1s y1e > max y0s y1e))
    else
      false
  else if x0s = x0e ∨ x1s = x1e then
    -- One segment is vertical, the other is not; if needed, exchange names so
    -- that line 0 is the vertical one
    let v : ℚ × ℚ × ℚ × ℚ × ℚ × ℚ × ℚ × ℚ :=
      if x1s = x1e then (x1s, x1e, x0s, x0e, y1s, y1e, y0s, y0e)
      else (x0s, x0e, x1s, x1e, y0s, y0e, y1s, y1e)
    match v with
    | (X0s, _X0e, X1s, X1e, Y0s, Y0e, Y1s, Y1e) =>
      let m := (Y1e - Y1s) / (X1e - X1s)
      let bb := (X1e * Y1s - X1s * Y1e) / (X1e - X1s)
      decide (min X1s X1e ≤ X0s ∧ X0s ≤ max X1s X1e ∧
              min Y0s Y0e ≤ m * X0s + bb ∧ m * X0s + bb ≤ max Y0s Y0e)
  else
    -- Neither line is vertical; check slopes and y-intercepts
    let b0 := (y0s * x0e - y0e * x0s) / (x0e - x0s)
    let b1 := (y1s * x1e - y1e * x1s) / (x1e - x1s)
    if (x1e - x1s) * (y0e - y0s) = (x0e - x0s) * (y1e - y1s) then
      if b0 = b1 then
        decide (¬ (min x0s x0e > max x1s x1e ∨ min x1s x1e > max x0s x1e))
      else
        false
    else
      let m0 := (y0e - y0s) / (x0e - x0s)
      let m1 := (y1e - y1s) / (x1e - x1s)
      let xi := (b1 - b0) / (m0 - m1)
      let yi := m0 * xi + b0
      decide (min x0s x0e ≤ xi ∧ xi ≤ max x0s x0e ∧
              min y0s y0e ≤ yi ∧ yi ≤ max y0s y0e ∧
              min x1s x1e ≤ xi ∧ xi ≤ max x1s x1e ∧
              min y1s y1e ≤ yi ∧ yi ≤ max y1s y1e)

/-- Division returning `none` on a zero divisor, used to audit the division
sites of `overlapping`. -/
def divQ (x y : ℚ) : Option ℚ := if y = 0 then none else some (x / y)

/-- `overlapping` with every division site guarded: evaluates to `none` if
any division in the taken branch has a zero divisor, and to `some` of the
branch's answer otherwise.  Mirrors the branch structure of `overlapping`
exactly. -/
def overlappingChecked (a b c d : Pt) : Option Bool :=
  let x0s := a.1; let y0s := a.2
  let x0e := b.1; let y0e := b.2
  let x1s := c.1; let y1s := c.2
  let x1e := d.1; let y1e := d.2
  if x0s = x0e ∧ x1s = x1e then
    if x0e = x1s then
      some (decide (¬ (min y0s y0e > max y1s y1e ∨ min y1s y1e > max y0s y1e)))
    else
      some false
  else if x0s = x0e ∨ x1s = x1e then
    let v : ℚ × ℚ × ℚ × ℚ × ℚ × ℚ × ℚ × ℚ :=
      if x1s = x1e then (x1s, x1e, x0s, x0e, y1s, y1e, y0s, y0e)
      else (x0s, x0e, x1s, x1e, y0s, y0e, y1s, y1e)
    match v with
    | (X0s, _X0e, X1s, X1e, Y0s, Y0e, Y1s, Y1e) => do
      let m ← divQ (Y1e - Y1s) (X1e - X1s)
      let bb ← divQ (X1e * Y1s - X1s * Y1e) (X1e - X1s)
      some (decide (min X1s X1e ≤ X0s ∧ X0s ≤ max X1s X1e ∧
              min Y0s Y0e ≤ m * X0s + bb ∧ m * X0s + bb ≤ max Y0s Y0e))
  else do
    let b0 ← divQ (y0s * x0e - y0e * x0s) (x0e - x0s)
    let b1 ← divQ (y1s * x1e - y1e * x1s) (x1e - x1s)
    if (x1e - x1s) * (y0e - y0s) = (x0e - x0s) * (y1e - y1s) then
      if b0 = b1 then
        some (decide (¬ (min x0s x0e > max x1s x1e ∨ min x1s x1e > max x0s x1e)))
      else
        some false
    else do
      let m0 ← divQ (y0e - y0s) (x0e - x0s)
      let m1 ← divQ (y1e - y1s) (x1e - x1s)
      let xi ← divQ (b1 - b0) (m0 - m1)
      let yi := m0 * xi + b0
      some (decide (min x0s x0e ≤ xi ∧ xi ≤ max x0s x0e ∧
              min y0s y0e ≤ yi ∧ yi ≤ max y0s y0e ∧
              min x1s x1e ≤ xi ∧ xi ≤ max x1s x1e ∧
              min y1s y1e ≤ yi ∧ yi ≤ max y1s y1e))

/-- An obstacle: an axis-aligned bounding box `(xmin, ymin, xmax, ymax)` as
returned by `qgeometry_bounds()`. -/
abbrev Obstacle := ℚ × ℚ × ℚ × ℚ

/-- The design's components, reduced to their bounding boxes. -/
abbrev Design := List Obstacle

/-- The four boundary segments `(p,q), (p,r), (r,s), (q,s)` of a bounding
box, with `p, q, r, s` as in `no_obstacles` (lines 109-113). -/
def obstacleEdges (o : Obstacle) : List (Pt × Pt) :=
  let xmin := o.1; let ymin := o.2.1; let xmax := o.2.2.1; let ymax := o.2.2.2
  let p : Pt := (xmin, ymin)
  let q : Pt := (xmin, ymax)
  let r : Pt := (xmax, ymin)
  let s : Pt := (xmax, ymax)
  [(p, q), (p, r), (r, s), (q, s)]

/-- Transcription of `HybridPathfinderNew.no_obstacles` (lines 97-117):
true iff no component's bounding-box boundary segment intersects or
overlaps the segment from `s0` to `s1`. -/
def no_obstacles (design : Design) (s0 s1 : Pt) : Bool :=
  design.all fun o => ! (obstacleEdges o).any fun e => overlapping s0 s1 e.1 e.2

/-- Transcription of `HybridPathfinderNew.getpts_simple` (lines 119-159):
try connecting `s` and `e` with a single segment, a 2-segment elbow, or a
symmetric 3-segment path. -/
def getpts_simple (design : Design) (startDir s e : Pt) : List Pt :=
  if 0 ≤ pdot startDir (psub e s) then
    if (s.1 = e.1 ∨ s.2 = e.2) ∧ no_obstacles design s e = true then [s, e]
    else
      let newpt1 : Pt := (s.1, e.2)
      if no_obstacles design s newpt1 = true ∧ no_obstacles design newpt1 e = true then
        [s, newpt1, e]
      else
        let newpt2 : Pt := (e.1, s.2)
        if no_obstacles design s newpt2 = true ∧ no_obstacles design newpt2 e = true then
          [s, newpt2, e]
        else
          let offsetx := |s.1 - e.1|
          let offsety := |s.2 - e.2|
          let newpt3 : Pt :=
            if offsety ≤ offsetx then ((s.1 + e.1) / 2, s.2) else (s.1, (s.2 + e.2) / 2)
          let newpt4 : Pt :=
            if offsety ≤ offsetx then ((s.1 + e.1) / 2, e.2) else (e.1, (s.2 + e.2) / 2)
          if no_obstacles design s newpt3 = true ∧ no_obstacles design newpt3 newpt4 = true ∧
              no_obstacles design newpt4 e = true then
            [s, newpt3, newpt4, e]
          else []
  else []
/-- The y-value at abscissa `x` of the (non-vertical) line through `c`
and `d`, exactly as computed in `overlapping` (lines 40-41). -/
def lineY (c d : Pt) (x : ℚ) : ℚ :=
  (d.2 - c.2) / (d.1 - c.1) * x + (d.1 * c.2 - c.1 * d.2) / (d.1 - c.1)

/-- The intersection abscissa computed in `overlapping` (line 62) for a
horizontal segment at height `y` against the non-axis-parallel line
through `c` and `d`. -/
def slantX (c d : Pt) (y : ℚ) : ℚ :=
  ((c.2 * d.1 - d.2 * c.1) / (d.1 - c.1) - y) / (0 - (d.2 - c.2) / (d.1 - c.1))


/-- Heap/path-map key: `(total length travelled + Manhattan distance to
destination, x, y)`, as in `pathmapper` and the heap `h` (lines 177-181). -/
abbrev Key := ℚ × ℚ × ℚ

/-- Strict lexicographic order on keys, matching Python tuple comparison
used by `heapq`. -/
def keyLt (k1 k2 : Key) : Bool :=
  decide (k1.1 < k2.1 ∨ (k1.1 = k2.1 ∧
    (k1.2.1 < k2.2.1 ∨ (k1.2.1 = k2.2.1 ∧ k1.2.2 < k2.2.2))))

/-- The least key of a list (`none` on the empty list). -/
def minKey (l : List Key) : Option Key :=
  l.foldl (fun acc k =>
    match acc with
    | none => some k
    | some m => if keyLt k m then some k else some m) none

/-- `heapq.heappop`: remove and return the least key. -/
def popMin (l : List Key) : Option (Key × List Key) :=
  match minKey l with
  | none => none
  | some m => some (m, l.erase m)

/-- The A* search state: the frontier heap `h`, the map `pathmapper`
(most recent binding first, so lookup sees Python-dict overwrite
semantics), and the `visited` set. -/
structure AState where
  heap : List Key
  pathmap : List (Key × (ℚ × List Pt))
  visited : List Pt

/-- `pathmapper[key]` lookup: the most recently stored value for a key. -/
def lookupPath (l : List (Key × (ℚ × List Pt))) (k : Key) : Option (ℚ × List Pt) :=
  match l.find? (fun kv => decide (kv.1 = k)) with
  | some kv => some kv.2
  | none => none

/-- The unit displacements in the four cardinal directions (line 203). -/
def cardinalDirs : List Pt := [(0, 1), (0, -1), (1, 0), (-1, 0)]

/-- The neighbor list generated at one expansion step (lines 194-210): a
point `curpt + step_size * disp` for each cardinal `disp` whose dot
product with the current direction is non-negative and whose connecting
segment passes the clearance test, in the source's direction order. -/
def neighborsOf (design : Design) (direction curpt : Pt) (step : ℚ) : List Pt :=
  cardinalDirs.filterMap fun disp =>
    let nextpt := padd curpt (pscale step disp)
    if 0 ≤ pdot disp direction ∧ no_obstacles design curpt nextpt = true then some nextpt
    else none

/-- The current travel direction (lines 195-200): the start direction when
the path has a single point, otherwise the difference of its last two
points. -/
def pathDirection (startDir : Pt) (path : List Pt) : Pt :=
  if path.length = 1 then startDir
  else
    match path.getLast?, path.dropLast.getLast? with
    | some u, some p => psub u p
    | _, _ => startDir

/-- The collinearity test of line 219: the cross product of the last path
segment with the candidate extension is zero. -/
def collinearExtend (path : List Pt) (nb : Pt) : Bool :=
  match path.getLast?, path.dropLast.getLast? with
  | some u, some p => decide ((u.2 - p.2) * (nb.1 - u.1) = (nb.2 - u.2) * (u.1 - p.1))
  | _, _ => false

/-- The goal tolerance `10 ** -8` of line 226. -/
def goalTol : ℚ := 1 / 100000000

/-- The `for neighbor in neighbors` loop body (lines 211-231): either an
early return with the finished path (`Sum.inl`), or the updated search
state (`Sum.inr`). -/
def stepNeighbors (design : Design) (e : Pt) (step g : ℚ) (path : List Pt) :
    List Pt → AState → List Pt ⊕ AState
  | [], st => Sum.inr st
  | nb :: rest, st =>
    if nb ∈ st.visited then stepNeighbors design e step g path rest st
    else
      let newRem := manhattan e nb
      let newG := g + step
      let newPath :=
        if 1 < path.length ∧ collinearExtend path nb = true then path.dropLast ++ [nb]
        else path ++ [nb]
      if newRem < goalTol then Sum.inl (newPath.dropLast ++ [e])
      else
        let key : Key := (newG + newRem, nb.1, nb.2)
        stepNeighbors design e step g path rest
          ⟨st.heap ++ [key], (key, (newG, newPath)) :: st.pathmap, st.visited ++ [nb]⟩

/-- The `while h` loop of `getpts_astar` (lines 187-232).  `fuel` bounds
the number of iterations (the Python loop is unbounded); `none` stands for
a computation that is still running (or the unreachable `KeyError` on a
missing `pathmapper` entry), `some []` is the frontier-exhausted return of
line 232, and `some path` a goal-reached return of line 228. -/
def astarLoop (design : Design) (startDir e : Pt) (step : ℚ) :
    Nat → AState → Option (List Pt)
  | 0, _ => none
  | fuel + 1, st =>
    match popMin st.heap with
    | none => some []
    | some (key, heap') =>
      match lookupPath st.pathmap key with
      | none => none
      | some (g, path) =>
        let direction := pathDirection startDir path
        let curpt := path.getLastD (0, 0)
        let nbs := neighborsOf design direction curpt step
        match stepNeighbors design e step g path nbs ⟨heap', st.pathmap, st.visited⟩ with
        | Sum.inl done => some done
        | Sum.inr st' => astarLoop design startDir e step fuel st'

/-- Transcription of `HybridPathfinderNew.getpts_astar` (lines 161-232),
with an explicit iteration bound `fuel`. -/
def getpts_astar (design : Design) (startDir s e : Pt) (step : ℚ) (fuel : Nat) :
    Option (List Pt) :=
  let d0 := manhattan e s
  let k0 : Key := (d0, s.1, s.2)
  astarLoop design startDir e step fuel ⟨[k0], [(k0, (d0, [s]))], [s]⟩

/-- The routing-relevant configuration of `HybridPathfinderNew.make`
(lines 234-271): the design's obstacle boxes, the two pin middles and
normals, the parsed width, lead lengths and step size, the ordered anchor
list, and the iteration bound for the A* fallback. -/
structure MakeCfg where
  design : Design
  m1 : Pt
  n1 : Pt
  m2 : Pt
  n2 : Pt
  w : ℚ
  leadstart : ℚ
  leadend : ℚ
  step : ℚ
  anchors : List Pt
  fuel : Nat

/-- The lead-in point `m1 + n1 * (w / 2 + leadstart)` (line 260). -/
def leadinPt (c : MakeCfg) : Pt := padd c.m1 (pscale (c.w / 2 + c.leadstart) c.n1)

/-- The lead-out point `m2 + n2 * (w / 2 + leadend)` (line 262). -/
def leadoutPt (c : MakeCfg) : Pt := padd c.m2 (pscale (c.w / 2 + c.leadend) c.n2)

/-- The hop targets processed by `make`'s loop: the anchors followed by the
lead-out point (line 262). -/
def targetsOf (c : MakeCfg) : List Pt := c.anchors ++ [leadoutPt c]

/-- The last vertex of the route built so far (`self._pts[-1]`). -/
def tailPt (pts : List Pt) : Pt := pts.getLastD (0, 0)

/-- One iteration of `make`'s loop (lines 262-269): route to `coord` with
`getpts_simple`, falling back to `getpts_astar`, and append the resulting
vertices excluding the shared first one. -/
def processTarget (design : Design) (step : ℚ) (fuel : Nat) (pts : List Pt) (coord : Pt) :
    Option (List Pt) :=
  let tl := tailPt pts
  let dir := psub coord tl
  let easy := getpts_simple design dir tl coord
  if easy.isEmpty then
    match getpts_astar design dir tl coord step fuel with
    | none => none
    | some ap => some (pts ++ ap.tail)
  else some (pts ++ easy.tail)

/-- The vertex list `self._pts` built by `HybridPathfinderNew.make`
(lines 260-271): seeded with the start pin and its lead-in point, extended
by each hop, and terminated with the end pin `m2`.  `none` only when the
A* fuel bound is hit. -/
def makePts (c : MakeCfg) : Option (List Pt) :=
  ((targetsOf c).foldlM (processTarget c.design c.step c.fuel) [c.m1, leadinPt c]).map
    fun pts => pts ++ [c.m2]

/-- Membership in the implicit grid generated from `s` with spacing
`step`: both offsets are integer multiples of `step`. -/
def onLattice (s : Pt) (step : ℚ) (p : Pt) : Prop :=
  ∃ i j : ℤ, p.1 = s.1 + step * i ∧ p.2 = s.2 + step * j

/-- An axis-aligned segment passing the clearance test. -/
def SegOK (design : Design) (x y : Pt) : Prop :=
  (x.1 = y.1 ∨ x.2 = y.2) ∧ no_obstacles design x y = true

/-- Invariant of every path stored in the A* `pathmapper`: non-empty,
starting at `s`, duplicate-free, contained in the visited set and the
step grid, with every segment axis-aligned and clear. -/
def GoodPath (design : Design) (s : Pt) (step : ℚ) (visited : List Pt)
    (path : List Pt) : Prop :=
  path ≠ [] ∧ path.head? = some s ∧ path.Nodup ∧
  (∀ p ∈ path, p ∈ visited) ∧ (∀ p ∈ path, onLattice s step p) ∧
  List.Chain' (SegOK design) path

/-- Invariant of the whole A* search state. -/
def GoodSt (design : Design) (s : Pt) (step : ℚ) (st : AState) : Prop :=
  ∀ k g path, lookupPath st.pathmap k = some (g, path) →
    GoodPath design s step st.visited path

/-- Clearance up to goal snapping: the segment from `x` to `y` is clear,
or is clear after replacing `y` by a point within the goal tolerance. -/
def RelR (design : Design) (x y : Pt) : Prop :=
  no_obstacles design x y = true ∨
    ∃ nb, no_obstacles design x nb = true ∧ manhattan y nb < goalTol

/-- What holds of every non-empty path returned by the A* search. -/
def GoodResult (design : Design) (s e : Pt) (step : ℚ) (path : List Pt) : Prop :=
  path ≠ [] ∧ path.head? = some s ∧ path.getLast? = some e ∧
  List.Chain' (RelR design) path ∧ (2 * goalTol < step → path.Nodup)

/-! ### Interval helpers -/

theorem interval_split {a b c m : ℚ} (h1 : min a c ≤ m) (h2 : m ≤ max a c) :
    (min a b ≤ m ∧ m ≤ max a b) ∨ (min b c ≤ m ∧ m ≤ max b c) := by
  rcases le_total m b with hb | hb
  · rcases le_total a c with hac | hac
    · have ha : a ≤ m := by rwa [min_eq_left hac] at h1
      exact Or.inl ⟨le_trans (min_le_left a b) ha, le_trans hb (le_max_right a b)⟩
    · have hc : c ≤ m := by rwa [min_eq_right hac] at h1
      exact Or.inr ⟨le_trans (min_le_right b c) hc, le_trans hb (le_max_left b c)⟩
  · rcases le_total a c with hac | hac
    · have hc : m ≤ c := by rwa [max_eq_right hac] at h2
      exact Or.inr ⟨le_trans (min_le_left b c) hb, le_trans hc (le_max_right b c)⟩
    · have ha : m ≤ a := by rwa [max_eq_left hac] at h2
      exact Or.inl ⟨le_trans (min_le_right a b) hb, le_trans ha (le_max_left a b)⟩

theorem min_split {a b c M : ℚ} (h : min a c ≤ M) : min a b ≤ M ∨ min b c ≤ M := by
  rcases le_total a c with hac | hac
  · left
    exact le_trans (min_le_left a b) (by simpa [min_eq_left hac] using h)
  · right
    exact le_trans (min_le_right b c) (by simpa [min_eq_right hac] using h)

/-! ### Characterizations of `overlapping` by geometric case

Obstacle edges are always axis-aligned, and every route segment produced
by the routers is axis-aligned as well, so the lemmas below cover every
combination reached from `no_obstacles`. -/


theorem overlapping_vert_vert {a b c d : Pt} (hab : a.1 = b.1) (hcd : c.1 = d.1) :
    overlapping a b c d = (decide (a.1 = c.1) && decide (min a.2 b.2 ≤ max c.2 d.2)) := by
  have h1 : (a.1 = b.1 ∧ c.1 = d.1) := ⟨hab, hcd⟩
  simp only [overlapping, if_pos h1]
  by_cases hx : b.1 = c.1
  · have hx' : a.1 = c.1 := hab.trans hx
    rw [if_pos hx, decide_eq_true hx', Bool.true_and, decide_eq_decide]
    have h2 : min c.2 d.2 ≤ max a.2 d.2 :=
      le_trans (min_le_right c.2 d.2) (le_max_right a.2 d.2)
    constructor
    · intro h
      push_neg at h
      exact h.1
    · intro h
      push_neg
      exact ⟨h, h2⟩
  · have hx' : ¬ (a.1 = c.1) := fun h => hx (hab.symm.trans h)
    rw [if_neg hx, decide_eq_false hx', Bool.false_and]

theorem overlapping_vert_nonvert {a b c d : Pt} (hab : a.1 = b.1) (hcd : c.1 ≠ d.1) :
    overlapping a b c d =
      decide (min c.1 d.1 ≤ a.1 ∧ a.1 ≤ max c.1 d.1 ∧
        min a.2 b.2 ≤ lineY c d a.1 ∧ lineY c d a.1 ≤ max a.2 b.2) := by
  have h1 : ¬ (a.1 = b.1 ∧ c.1 = d.1) := fun h => hcd h.2
  have h2 : a.1 = b.1 ∨ c.1 = d.1 := Or.inl hab
  simp only [overlapping, if_neg h1, if_pos h2, if_neg hcd, lineY]

theorem overlapping_horiz_vert {a b c d : Pt} (hab2 : a.2 = b.2) (hab1 : a.1 ≠ b.1)
    (hcd : c.1 = d.1) :
    overlapping a b c d =
      decide (min a.1 b.1 ≤ c.1 ∧ c.1 ≤ max a.1 b.1 ∧
        min c.2 d.2 ≤ a.2 ∧ a.2 ≤ max c.2 d.2) := by
  have h1 : ¬ (a.1 = b.1 ∧ c.1 = d.1) := fun h => hab1 h.1
  have h2 : a.1 = b.1 ∨ c.1 = d.1 := Or.inr hcd
  simp only [overlapping, if_neg h1, if_pos h2, if_pos hcd]
  have hsub : b.1 - a.1 ≠ 0 := sub_ne_zero.mpr (Ne.symm hab1)
  have hm : (b.2 - a.2) / (b.1 - a.1) = 0 := by rw [hab2]; simp
  have hbb : (b.1 * a.2 - a.1 * b.2) / (b.1 - a.1) = a.2 := by
    rw [← hab2]
    field_simp
    ring
  rw [hm, hbb, decide_eq_decide]
  constructor
  · rintro ⟨u1, u2, u3, u4⟩
    exact ⟨u1, u2, by linarith, by linarith⟩
  · rintro ⟨u1, u2, u3, u4⟩
    exact ⟨u1, u2, by linarith, by linarith⟩

theorem overlapping_horiz_horiz {a b c d : Pt} (hab2 : a.2 = b.2) (hab1 : a.1 ≠ b.1)
    (hcd2 : c.2 = d.2) (hcd1 : c.1 ≠ d.1) :
    overlapping a b c d = (decide (a.2 = c.2) && decide (min a.1 b.1 ≤ max c.1 d.1)) := by
  have h1 : ¬ (a.1 = b.1 ∧ c.1 = d.1) := fun h => hab1 h.1
  have h2 : ¬ (a.1 = b.1 ∨ c.1 = d.1) := by
    rintro (h | h)
    · exact hab1 h
    · exact hcd1 h
  simp only [overlapping, if_neg h1, if_neg h2]
  have hpar : (d.1 - c.1) * (b.2 - a.2) = (b.1 - a.1) * (d.2 - c.2) := by
    rw [hab2, hcd2]; ring
  rw [if_pos hpar]
  have hb0 : (a.2 * b.1 - b.2 * a.1) / (b.1 - a.1) = a.2 := by
    rw [← hab2]
    have hsub : b.1 - a.1 ≠ 0 := sub_ne_zero.mpr (Ne.symm hab1)
    field_simp
    ring
  have hb1 : (c.2 * d.1 - d.2 * c.1) / (d.1 - c.1) = c.2 := by
    rw [← hcd2]
    have hsub : d.1 - c.1 ≠ 0 := sub_ne_zero.mpr (Ne.symm hcd1)
    field_simp
    ring
  rw [hb0, hb1]
  by_cases hyy : a.2 = c.2
  · rw [if_pos hyy, decide_eq_true hyy, Bool.true_and, decide_eq_decide]
    have h3 : min c.1 d.1 ≤ max a.1 d.1 :=
      le_trans (min_le_right c.1 d.1) (le_max_right a.1 d.1)
    constructor
    · intro h
      push_neg at h
      exact h.1
    · intro h
      push_neg
      exact ⟨h, h3⟩
  · rw [if_neg hyy, decide_eq_false hyy, Bool.false_and]

theorem overlapping_horiz_slant {a b c d : Pt} (hab2 : a.2 = b.2) (hab1 : a.1 ≠ b.1)
    (hcd1 : c.1 ≠ d.1) (hcd2 : c.2 ≠ d.2) :
    overlapping a b c d =
      decide (min a.1 b.1 ≤ slantX c d a.2 ∧ slantX c d a.2 ≤ max a.1 b.1 ∧
        min c.1 d.1 ≤ slantX c d a.2 ∧ slantX c d a.2 ≤ max c.1 d.1 ∧
        min c.2 d.2 ≤ a.2 ∧ a.2 ≤ max c.2 d.2) := by
  have h1 : ¬ (a.1 = b.1 ∧ c.1 = d.1) := fun h => hab1 h.1
  have h2 : ¬ (a.1 = b.1 ∨ c.1 = d.1) := by
    rintro (h | h)
    · exact hab1 h
    · exact hcd1 h
  simp only [overlapping, if_neg h1, if_neg h2]
  have hpar : ¬ ((d.1 - c.1) * (b.2 - a.2) = (b.1 - a.1) * (d.2 - c.2)) := by
    intro h
    rw [hab2, sub_self, mul_zero] at h
    exact mul_ne_zero (sub_ne_zero.mpr (Ne.symm hab1)) (sub_ne_zero.mpr (Ne.symm hcd2)) h.symm
  rw [if_neg hpar]
  have hsub : b.1 - a.1 ≠ 0 := sub_ne_zero.mpr (Ne.symm hab1)
  have hm0 : (b.2 - a.2) / (b.1 - a.1) = 0 := by rw [hab2]; simp
  have hb0 : (a.2 * b.1 - b.2 * a.1) / (b.1 - a.1) = a.2 := by
    rw [← hab2]
    field_simp
    ring
  rw [hm0, hb0, ← hab2, decide_eq_decide]
  simp only [slantX, min_self, max_self, zero_mul, zero_add]
  constructor
  · rintro ⟨u1, u2, _, _, u5, u6, u7, u8⟩
    exact ⟨u1, u2, u5, u6, u7, u8⟩
  · rintro ⟨u1, u2, u5, u6, u7, u8⟩
    exact ⟨u1, u2, le_rfl, le_rfl, u5, u6, u7, u8⟩

/-! ### Union lemmas: a collinear axis-aligned segment that is split at an
intermediate point is blocked only if one of its parts is blocked. -/

theorem overlapping_union_vert {A B C c d : Pt} (h1 : A.1 = B.1) (h2 : B.1 = C.1)
    (h : overlapping A C c d = true) :
    overlapping A B c d = true ∨ overlapping B C c d = true := by
  have hAC : A.1 = C.1 := h1.trans h2
  by_cases hcd : c.1 = d.1
  · rw [overlapping_vert_vert hAC hcd] at h
    rw [overlapping_vert_vert h1 hcd, overlapping_vert_vert h2 hcd]
    simp only [Bool.and_eq_true, decide_eq_true_eq] at h ⊢
    obtain ⟨hx, hy⟩ := h
    rcases min_split (b := B.2) hy with hm | hm
    · exact Or.inl ⟨hx, hm⟩
    · exact Or.inr ⟨h1 ▸ hx, hm⟩
  · rw [overlapping_vert_nonvert hAC hcd] at h
    rw [overlapping_vert_nonvert h1 hcd, overlapping_vert_nonvert h2 hcd]
    simp only [decide_eq_true_eq] at h ⊢
    obtain ⟨hx1, hx2, hy1, hy2⟩ := h
    rcases interval_split (b := B.2) hy1 hy2 with ⟨u1, u2⟩ | ⟨u1, u2⟩
    · exact Or.inl ⟨hx1, hx2, u1, u2⟩
    · right
      rw [← h1]
      exact ⟨hx1, hx2, u1, u2⟩

theorem overlapping_union_horiz {A B C c d : Pt} (h1 : A.2 = B.2) (h2 : B.2 = C.2)
    (hAB : A.1 ≠ B.1) (hBC : B.1 ≠ C.1) (hAC : A.1 ≠ C.1)
    (h : overlapping A C c d = true) :
    overlapping A B c d = true ∨ overlapping B C c d = true := by
  have hAC2 : A.2 = C.2 := h1.trans h2
  by_cases hcd : c.1 = d.1
  · rw [overlapping_horiz_vert hAC2 hAC hcd] at h
    rw [overlapping_horiz_vert h1 hAB hcd, overlapping_horiz_vert h2 hBC hcd]
    simp only [decide_eq_true_eq] at h ⊢
    obtain ⟨u1, u2, u3, u4⟩ := h
    rcases interval_split (b := B.1) u1 u2 with ⟨v1, v2⟩ | ⟨v1, v2⟩
    · exact Or.inl ⟨v1, v2, u3, u4⟩
    · right
      rw [← h1]
      exact ⟨v1, v2, u3, u4⟩
  · by_cases hcd2 : c.2 = d.2
    · rw [overlapping_horiz_horiz hAC2 hAC hcd2 hcd] at h
      rw [overlapping_horiz_horiz h1 hAB hcd2 hcd, overlapping_horiz_horiz h2 hBC hcd2 hcd]
      simp only [Bool.and_eq_true, decide_eq_true_eq] at h ⊢
      obtain ⟨hy, hx⟩ := h
      rcases min_split (b := B.1) hx with hm | hm
      · exact Or.inl ⟨hy, hm⟩
      · exact Or.inr ⟨h1 ▸ hy, hm⟩
    · rw [overlapping_horiz_slant hAC2 hAC hcd hcd2] at h
      rw [overlapping_horiz_slant h1 hAB hcd hcd2, overlapping_horiz_slant h2 hBC hcd hcd2]
      simp only [decide_eq_true_eq] at h ⊢
      obtain ⟨u1, u2, u3, u4, u5, u6⟩ := h
      rcases interval_split (b := B.1) u1 u2 with ⟨v1, v2⟩ | ⟨v1, v2⟩
      · exact Or.inl ⟨v1, v2, u3, u4, u5, u6⟩
      · right
        rw [← h1]
        exact ⟨v1, v2, u3, u4, u5, u6⟩

theorem no_obstacles_eq_true_iff {design : Design} {u v : Pt} :
    no_obstacles design u v = true ↔
      ∀ o ∈ design, ∀ e ∈ obstacleEdges o, overlapping u v e.1 e.2 = false := by
  simp only [no_obstacles, List.all_eq_true, Bool.not_eq_true']
  constructor
  · intro h o ho e he
    have h' := h o ho
    rw [List.any_eq_false] at h'
    simpa using h' e he
  · intro h o ho
    rw [List.any_eq_false]
    intro e he
    simpa using h o ho e he

theorem no_obstacles_union {design : Design} {A B C : Pt}
    (hax : (A.1 = B.1 ∧ B.1 = C.1) ∨
      (A.2 = B.2 ∧ B.2 = C.2 ∧ A.1 ≠ B.1 ∧ B.1 ≠ C.1 ∧ A.1 ≠ C.1))
    (h1 : no_obstacles design A B = true) (h2 : no_obstacles design B C = true) :
    no_obstacles design A C = true := by
  rw [no_obstacles_eq_true_iff] at h1 h2 ⊢
  intro o ho e he
  by_contra hvi
  have hov : overlapping A C e.1 e.2 = true := by
    cases hcase : overlapping A C e.1 e.2
    · exact absurd hcase hvi
    · rfl
  have : overlapping A B e.1 e.2 = true ∨ overlapping B C e.1 e.2 = true := by
    rcases hax with ⟨x1, x2⟩ | ⟨y1, y2, n1, n2, n3⟩
    · exact overlapping_union_vert x1 x2 hov
    · exact overlapping_union_horiz y1 y2 n1 n2 n3 hov
  rcases this with hh | hh
  · rw [h1 o ho e he] at hh
    exact Bool.false_ne_true hh
  · rw [h2 o ho e he] at hh
    exact Bool.false_ne_true hh

/-! ### Properties of `getpts_simple` -/

theorem midpoint_ne_left {x y : ℚ} (h : x ≠ y) : (x + y) / 2 ≠ x := by
  intro hc
  apply h
  linarith [hc]

theorem midpoint_ne_right {x y : ℚ} (h : x ≠ y) : (x + y) / 2 ≠ y := by
  intro hc
  apply h
  linarith [hc]

theorem getpts_simple_chain_clear (design : Design) (dir s e : Pt) :
    List.Chain' (fun x y => no_obstacles design x y = true) (getpts_simple design dir s e) := by
  simp only [getpts_simple]
  split_ifs with h0 h1 h2 h3 h4 <;>
    simp_all [List.chain'_cons, List.chain'_singleton, and_assoc]

theorem getpts_simple_head (design : Design) (dir s e : Pt) :
    getpts_simple design dir s e = [] ∨ (getpts_simple design dir s e).head? = some s := by
  simp only [getpts_simple]
  split_ifs <;> simp

theorem getpts_simple_last (design : Design) (dir s e : Pt) :
    getpts_simple design dir s e = [] ∨ (getpts_simple design dir s e).getLast? = some e := by
  simp only [getpts_simple]
  split_ifs <;> simp

theorem getpts_simple_chain_ne (design : Design) (dir s e : Pt) (hse : s ≠ e) :
    List.Chain' (fun x y : Pt => x ≠ y) (getpts_simple design dir s e) := by
  simp only [getpts_simple]
  split_ifs with h0 h1 h2 h3 hxy h4 h5
  · exact List.chain'_pair.mpr hse
  · -- elbow at (s.1, e.2)
    have hs2 : s.2 ≠ e.2 := by
      intro hc
      apply h1
      have hn1 : ((s.1, e.2) : Pt) = s := by
        rw [← hc]
      refine ⟨Or.inr hc, ?_⟩
      have h' := h2.2
      rwa [hn1] at h'
    have hs1 : s.1 ≠ e.1 := by
      intro hc
      apply h1
      have hn1 : ((s.1, e.2) : Pt) = e := by
        rw [hc]
      refine ⟨Or.inl hc, ?_⟩
      have h' := h2.1
      rwa [hn1] at h'
    refine List.chain'_cons.mpr ⟨?_, List.chain'_pair.mpr ?_⟩
    · intro hc
      have h' := congrArg Prod.snd hc
      exact hs2 h'
    · intro hc
      have h' := congrArg Prod.fst hc
      exact hs1 h'
  · -- elbow at (e.1, s.2)
    have hs1 : s.1 ≠ e.1 := by
      intro hc
      apply h1
      have hn2 : ((e.1, s.2) : Pt) = s := by
        rw [← hc]
      refine ⟨Or.inl hc, ?_⟩
      have h' := h3.2
      rwa [hn2] at h'
    have hs2 : s.2 ≠ e.2 := by
      intro hc
      apply h1
      have hn2 : ((e.1, s.2) : Pt) = e := by
        rw [hc]
      refine ⟨Or.inr hc, ?_⟩
      have h' := h3.1
      rwa [hn2] at h'
    refine List.chain'_cons.mpr ⟨?_, List.chain'_pair.mpr ?_⟩
    · intro hc
      have h' := congrArg Prod.fst hc
      exact hs1 h'
    · intro hc
      have h' := congrArg Prod.snd hc
      exact hs2 h'
  · -- 3-segment, x-first: bends at ((s.1+e.1)/2, s.2) and ((s.1+e.1)/2, e.2)
    have hs1 : s.1 ≠ e.1 := by
      intro hc
      apply hse
      have h2e : s.2 = e.2 := by
        rw [hc, sub_self, abs_zero] at hxy
        have h0' : s.2 - e.2 = 0 := abs_eq_zero.mp (le_antisymm hxy (abs_nonneg _))
        linarith
      exact Prod.ext_iff.mpr ⟨hc, h2e⟩
    have hs2 : s.2 ≠ e.2 := by
      intro hc
      apply h1
      refine ⟨Or.inr hc, ?_⟩
      refine no_obstacles_union (A := s) (B := ((s.1 + e.1) / 2, s.2)) (C := e)
        (Or.inr ⟨rfl, hc, (midpoint_ne_left hs1).symm, midpoint_ne_right hs1, hs1⟩)
        h4.1 ?_
      have h34 : (((s.1 + e.1) / 2, s.2) : Pt) = ((s.1 + e.1) / 2, e.2) := by
        rw [hc]
      have h' := h4.2.2
      rwa [← h34] at h'
    refine List.chain'_cons.mpr ⟨?_, List.chain'_cons.mpr ⟨?_, List.chain'_pair.mpr ?_⟩⟩
    · intro hc
      have h' := congrArg Prod.fst hc
      exact midpoint_ne_left hs1 h'.symm
    · intro hc
      have h' := congrArg Prod.snd hc
      exact hs2 h'
    · intro hc
      have h' := congrArg Prod.fst hc
      exact midpoint_ne_right hs1 h'
  · exact List.chain'_nil
  · -- 3-segment, y-first: bends at (s.1, (s.2+e.2)/2) and (e.1, (s.2+e.2)/2)
    have hs2 : s.2 ≠ e.2 := by
      intro hc
      apply hxy
      rw [hc, sub_self, abs_zero]
      exact abs_nonneg _
    have hs1 : s.1 ≠ e.1 := by
      intro hc
      apply h1
      refine ⟨Or.inl hc, ?_⟩
      refine no_obstacles_union (A := s) (B := (s.1, (s.2 + e.2) / 2)) (C := e)
        (Or.inl ⟨rfl, hc⟩) h5.1 ?_
      have h34 : ((s.1, (s.2 + e.2) / 2) : Pt) = (e.1, (s.2 + e.2) / 2) := by
        rw [hc]
      have h' := h5.2.2
      rwa [← h34] at h'
    refine List.chain'_cons.mpr ⟨?_, List.chain'_cons.mpr ⟨?_, List.chain'_pair.mpr ?_⟩⟩
    · intro hc
      have h' := congrArg Prod.snd hc
      exact midpoint_ne_left hs2 h'.symm
    · intro hc
      have h' := congrArg Prod.fst hc
      exact hs1 h'
    · intro hc
      have h' := congrArg Prod.snd hc
      exact midpoint_ne_right hs2 h'
  · exact List.chain'_nil
  · exact List.chain'_nil

/-! ### List and metric helpers -/

theorem getLast?_eq_getLastD {α : Type} {l : List α} (d : α) (h : l ≠ []) :
    l.getLast? = some (l.getLastD d) := by
  rw [List.getLastD_eq_getLast?]
  cases hl : l.getLast? with
  | none => exact absurd (List.getLast?_eq_none_iff.mp hl) h
  | some a => rfl

theorem getLastD_mem {α : Type} {l : List α} (d : α) (h : l ≠ []) :
    l.getLastD d ∈ l := by
  have h1 := getLast?_eq_getLastD d h
  rw [List.getLast?_eq_getLast_of_ne_nil h] at h1
  have h2 : l.getLastD d = l.getLast h := (Option.some_injective _ h1).symm
  rw [h2]
  exact List.getLast_mem h

theorem head?_dropLast_of_two_le {α : Type} {l : List α} (h : 2 ≤ l.length) :
    l.dropLast.head? = l.head? := by
  match l with
  | a :: b :: t => simp

theorem manhattan_comm (p q : Pt) : manhattan p q = manhattan q p := by
  simp only [manhattan]
  rw [abs_sub_comm p.1 q.1, abs_sub_comm p.2 q.2]

theorem manhattan_self (p : Pt) : manhattan p p = 0 := by
  simp [manhattan]

theorem manhattan_triangle (p q r : Pt) :
    manhattan p r ≤ manhattan p q + manhattan q r := by
  simp only [manhattan]
  have h1 := abs_sub_le p.1 q.1 r.1
  have h2 := abs_sub_le p.2 q.2 r.2
  linarith

theorem lattice_separation {s : Pt} {step : ℚ} {p q : Pt} (hstep : 0 < step)
    (hp : onLattice s step p) (hq : onLattice s step q) (hne : p ≠ q) :
    step ≤ manhattan p q := by
  obtain ⟨i1, j1, hp1, hp2⟩ := hp
  obtain ⟨i2, j2, hq1, hq2⟩ := hq
  have h1 : p.1 - q.1 = step * ((i1 - i2 : ℤ) : ℚ) := by
    rw [hp1, hq1]
    push_cast
    ring
  have h2 : p.2 - q.2 = step * ((j1 - j2 : ℤ) : ℚ) := by
    rw [hp2, hq2]
    push_cast
    ring
  have hne' : ¬ (i1 - i2 = 0 ∧ j1 - j2 = 0) := by
    rintro ⟨e1, e2⟩
    apply hne
    have hi : i1 = i2 := by omega
    have hj : j1 = j2 := by omega
    refine Prod.ext_iff.mpr ⟨?_, ?_⟩
    · rw [hp1, hq1, hi]
    · rw [hp2, hq2, hj]
  have key : (1 : ℚ) ≤ |((i1 - i2 : ℤ) : ℚ)| + |((j1 - j2 : ℤ) : ℚ)| := by
    by_cases hz : i1 - i2 = 0
    · have hjz : j1 - j2 ≠ 0 := fun hj => hne' ⟨hz, hj⟩
      have : (1 : ℤ) ≤ |j1 - j2| := Int.one_le_abs hjz
      have hcast : (1 : ℚ) ≤ |((j1 - j2 : ℤ) : ℚ)| := by
        rw [← Int.cast_abs]
        exact_mod_cast this
      have := abs_nonneg ((i1 - i2 : ℤ) : ℚ)
      linarith
    · have : (1 : ℤ) ≤ |i1 - i2| := Int.one_le_abs hz
      have hcast : (1 : ℚ) ≤ |((i1 - i2 : ℤ) : ℚ)| := by
        rw [← Int.cast_abs]
        exact_mod_cast this
      have := abs_nonneg ((j1 - j2 : ℤ) : ℚ)
      linarith
  have hexp : manhattan p q = step * (|((i1 - i2 : ℤ) : ℚ)| + |((j1 - j2 : ℤ) : ℚ)|) := by
    simp only [manhattan]
    rw [h1, h2, abs_mul, abs_mul, abs_of_pos hstep]
    ring
  rw [hexp]
  nlinarith

theorem GoodPath.mono {design : Design} {s : Pt} {step : ℚ}
    {visited visited' path : List Pt} (h : GoodPath design s step visited path)
    (hsub : ∀ p ∈ visited, p ∈ visited') : GoodPath design s step visited' path := by
  obtain ⟨a1, a2, a3, a4, a5, a6⟩ := h
  exact ⟨a1, a2, a3, fun p hp => hsub p (a4 p hp), a5, a6⟩

theorem lookupPath_cons {k : Key} {v : ℚ × List Pt} {pm : List (Key × (ℚ × List Pt))}
    {k' : Key} :
    lookupPath ((k, v) :: pm) k' = if k = k' then some v else lookupPath pm k' := by
  by_cases h : k = k'
  · simp [lookupPath, List.find?, h]
  · simp [lookupPath, List.find?, h]

/-! ### Neighbor generation facts -/

theorem neighborsOf_spec {design : Design} {direction curpt : Pt} {step : ℚ} {nb : Pt}
    (h : nb ∈ neighborsOf design direction curpt step) :
    ∃ disp ∈ cardinalDirs, 0 ≤ pdot disp direction ∧
      nb = padd curpt (pscale step disp) ∧ no_obstacles design curpt nb = true := by
  simp only [neighborsOf, List.mem_filterMap] at h
  obtain ⟨disp, hd, hcond⟩ := h
  by_cases hc : 0 ≤ pdot disp direction ∧
      no_obstacles design curpt (padd curpt (pscale step disp)) = true
  · rw [if_pos hc] at hcond
    obtain rfl : padd curpt (pscale step disp) = nb := Option.some_injective _ hcond
    exact ⟨disp, hd, hc.1, rfl, hc.2⟩
  · rw [if_neg hc] at hcond
    cases hcond

theorem neighbor_props {design : Design} {direction curpt : Pt} {step : ℚ} {nb : Pt}
    (h : nb ∈ neighborsOf design direction curpt step) :
    no_obstacles design curpt nb = true ∧ (curpt.1 = nb.1 ∨ curpt.2 = nb.2) ∧
      ∀ s0, onLattice s0 step curpt → onLattice s0 step nb := by
  obtain ⟨disp, hd, _, hnb, hno⟩ := neighborsOf_spec h
  refine ⟨hno, ?_, ?_⟩
  · simp only [cardinalDirs, List.mem_cons, List.not_mem_nil, or_false] at hd
    rcases hd with rfl | rfl | rfl | rfl
    · left
      rw [hnb]
      simp [padd, pscale]
    · left
      rw [hnb]
      simp [padd, pscale]
    · right
      rw [hnb]
      simp [padd, pscale]
    · right
      rw [hnb]
      simp [padd, pscale]
  · intro s0 hlat
    obtain ⟨i, j, hi, hj⟩ := hlat
    simp only [cardinalDirs, List.mem_cons, List.not_mem_nil, or_false] at hd
    rcases hd with rfl | rfl | rfl | rfl
    · exact ⟨i, j + 1, by rw [hnb]; simp [padd, pscale, hi], by
        rw [hnb]; simp only [padd, pscale]; rw [hj]; push_cast; ring⟩
    · exact ⟨i, j - 1, by rw [hnb]; simp [padd, pscale, hi], by
        rw [hnb]; simp only [padd, pscale]; rw [hj]; push_cast; ring⟩
    · exact ⟨i + 1, j, by
        rw [hnb]; simp only [padd, pscale]; rw [hi]; push_cast; ring, by
        rw [hnb]; simp [padd, pscale, hj]⟩
    · exact ⟨i - 1, j, by
        rw [hnb]; simp only [padd, pscale]; rw [hi]; push_cast; ring, by
        rw [hnb]; simp [padd, pscale, hj]⟩

/-! ### The A* stored-path invariant -/

theorem concat_good {design : Design} {s : Pt} {step : ℚ} {visited : List Pt}
    {Q : List Pt} {nb : Pt}
    (hQne : Q ≠ []) (hQhead : Q.head? = some s) (hQnd : Q.Nodup)
    (hQvis : ∀ p ∈ Q, p ∈ visited) (hQlat : ∀ p ∈ Q, onLattice s step p)
    (hQchain : List.Chain' (SegOK design) Q)
    (hnbQ : nb ∉ Q) (hlat : onLattice s step nb)
    (hseg : SegOK design (Q.getLastD (0, 0)) nb) :
    GoodPath design s step (visited ++ [nb]) (Q ++ [nb]) ∧
      (Q ++ [nb]).getLast? = some nb ∧ 2 ≤ (Q ++ [nb]).length := by
  have hlast : Q.getLast? = some (Q.getLastD (0, 0)) := getLast?_eq_getLastD _ hQne
  refine ⟨⟨?_, ?_, ?_, ?_, ?_, ?_⟩, ?_, ?_⟩
  · simp
  · cases Q with
    | nil => exact absurd rfl hQne
    | cons a t => simpa using hQhead
  · rw [List.nodup_append]
    refine ⟨hQnd, List.nodup_singleton nb, ?_⟩
    intro a ha ha'
    rw [List.mem_singleton] at ha'
    exact hnbQ (ha' ▸ ha)
  · intro p hp
    rcases List.mem_append.mp hp with hp | hp
    · exact List.mem_append_left _ (hQvis p hp)
    · rw [List.mem_singleton] at hp
      exact List.mem_append_right _ (by simp [hp])
  · intro p hp
    rcases List.mem_append.mp hp with hp | hp
    · exact hQlat p hp
    · rw [List.mem_singleton] at hp
      exact hp ▸ hlat
  · rw [List.chain'_append]
    refine ⟨hQchain, List.chain'_singleton nb, ?_⟩
    intro x hx y hy
    have hx' : x = Q.getLastD (0, 0) := by
      rw [Option.mem_def, hlast] at hx
      exact (Option.some_injective _ hx).symm
    have hy' : y = nb := by
      rw [Option.mem_def] at hy
      simp only [List.head?_cons] at hy
      exact (Option.some_injective _ hy).symm
    rw [hx', hy']
    exact hseg
  · exact List.getLast?_concat _
  · have h1 : 1 ≤ Q.length := List.length_pos.mpr hQne
    simp only [List.length_append, List.length_singleton]
    omega

theorem newPath_good {design : Design} {s : Pt} {step : ℚ} {visited : List Pt}
    {path : List Pt} (hPath : GoodPath design s step visited path) {nb : Pt}
    (hclear : no_obstacles design (path.getLastD (0, 0)) nb = true)
    (haxis : (path.getLastD (0, 0)).1 = nb.1 ∨ (path.getLastD (0, 0)).2 = nb.2)
    (hlat : onLattice s step nb)
    (hv : nb ∉ visited) (newPath : List Pt)
    (hdef : newPath = if 1 < path.length ∧ collinearExtend path nb = true
      then path.dropLast ++ [nb] else path ++ [nb]) :
    GoodPath design s step (visited ++ [nb]) newPath ∧
      newPath.getLast? = some nb ∧ 2 ≤ newPath.length := by
  obtain ⟨hne, hhead, hnd, hvis, hlat', hchain⟩ := hPath
  have hu? : path.getLast? = some (path.getLastD (0, 0)) := getLast?_eq_getLastD _ hne
  have humem : path.getLastD (0, 0) ∈ path := getLastD_mem _ hne
  have hnbpath : nb ∉ path := fun h => hv (hvis nb h)
  have hnbu : nb ≠ path.getLastD (0, 0) := fun h => hnbpath (h ▸ humem)
  by_cases hc : 1 < path.length ∧ collinearExtend path nb = true
  · rw [if_pos hc] at hdef
    subst hdef
    have hQne : path.dropLast ≠ [] := by
      intro h
      have h2 : path.dropLast.length = path.length - 1 := List.length_dropLast path
      rw [h] at h2
      simp at h2
      omega
    have hp'? : path.dropLast.getLast? = some (path.dropLast.getLastD (0, 0)) :=
      getLast?_eq_getLastD _ hQne
    have hp'mem : path.dropLast.getLastD (0, 0) ∈ path.dropLast := getLastD_mem _ hQne
    have hp'path : path.dropLast.getLastD (0, 0) ∈ path :=
      (List.dropLast_sublist path).subset hp'mem
    have hsplit : path.dropLast ++ [path.getLastD (0, 0)] = path :=
      List.dropLast_append_getLast? _ (Option.mem_def.mpr hu?)
    have hchain2 : List.Chain' (SegOK design) (path.dropLast ++ [path.getLastD (0, 0)]) := by
      rw [hsplit]
      exact hchain
    obtain ⟨hchainQ, _, hseam⟩ := List.chain'_append.mp hchain2
    have hSegPU : SegOK design (path.dropLast.getLastD (0, 0)) (path.getLastD (0, 0)) := by
      refine hseam _ (Option.mem_def.mpr hp'?) _ ?_
      simp
    have hnd2 : (path.dropLast ++ [path.getLastD (0, 0)]).Nodup := by
      rw [hsplit]
      exact hnd
    have hunotQ : path.getLastD (0, 0) ∉ path.dropLast := by
      rw [List.nodup_append] at hnd2
      intro hmem
      exact hnd2.2.2 hmem (List.mem_singleton_self _)
    have hup' : path.getLastD (0, 0) ≠ path.dropLast.getLastD (0, 0) :=
      fun h => hunotQ (h ▸ hp'mem)
    have hnbp' : nb ≠ path.dropLast.getLastD (0, 0) := fun h => hnbpath (h ▸ hp'path)
    -- extract the cross-product equation from the collinearity test
    have hcoll := hc.2
    rw [collinearExtend, hu?, hp'?] at hcoll
    rw [decide_eq_true_eq] at hcoll
    -- set abbreviations
    have hkey : SegOK design (path.dropLast.getLastD (0, 0)) nb := by
      rcases hSegPU.1 with hx | hy
      · -- vertical: the penultimate and last point share x
        have huy : (path.getLastD (0, 0)).2 ≠ (path.dropLast.getLastD (0, 0)).2 := by
          intro h
          exact hup' (Prod.ext_iff.mpr ⟨hx.symm, h⟩)
        have hz : (path.getLastD (0, 0)).1 - (path.dropLast.getLastD (0, 0)).1 = 0 := by
          rw [hx]
          ring
        rw [hz, mul_zero] at hcoll
        rcases mul_eq_zero.mp hcoll with h1 | h1
        · exact absurd (by linarith : (path.getLastD (0, 0)).2 =
            (path.dropLast.getLastD (0, 0)).2) huy
        · have hnbx : nb.1 = (path.getLastD (0, 0)).1 := by linarith
          refine ⟨Or.inl (hx.trans hnbx.symm), ?_⟩
          exact no_obstacles_union (Or.inl ⟨hx, hnbx.symm⟩) hSegPU.2 hclear
      · -- horizontal: the penultimate and last point share y
        have hux : (path.getLastD (0, 0)).1 ≠ (path.dropLast.getLastD (0, 0)).1 := by
          intro h
          exact hup' (Prod.ext_iff.mpr ⟨h, hy.symm⟩)
        have hz : (path.getLastD (0, 0)).2 - (path.dropLast.getLastD (0, 0)).2 = 0 := by
          rw [hy]
          ring
        rw [hz, zero_mul] at hcoll
        have hx2 : (path.getLastD (0, 0)).1 - (path.dropLast.getLastD (0, 0)).1 ≠ 0 := by
          intro h
          exact hux (by linarith)
        rcases mul_eq_zero.mp hcoll.symm with h1 | h1
        · have hnby : nb.2 = (path.getLastD (0, 0)).2 := by linarith
          have h1ne : (path.getLastD (0, 0)).1 ≠ nb.1 := by
            intro h
            exact hnbu (Prod.ext_iff.mpr ⟨h.symm, hnby⟩)
          have h2ne : (path.dropLast.getLastD (0, 0)).1 ≠ nb.1 := by
            intro h
            apply hnbp'
            refine Prod.ext_iff.mpr ⟨h.symm, ?_⟩
            rw [hnby, hy]
          refine ⟨Or.inr (hy.trans hnby.symm), ?_⟩
          refine no_obstacles_union (B := path.getLastD (0, 0))
            (Or.inr ⟨hy, hnby.symm, fun h => hux h.symm, h1ne, h2ne⟩) hSegPU.2 hclear
        · exact absurd h1 hx2
    have hres := concat_good hQne (by
        rw [head?_dropLast_of_two_le]
        · exact hhead
        · omega)
      (hnd.sublist (List.dropLast_sublist path))
      (fun p hp => hvis p ((List.dropLast_sublist path).subset hp))
      (fun p hp => hlat' p ((List.dropLast_sublist path).subset hp))
      hchainQ (fun h => hnbpath ((List.dropLast_sublist path).subset h)) hlat hkey
    exact hres
  · rw [if_neg hc] at hdef
    subst hdef
    exact concat_good hne hhead hnd hvis hlat' hchain hnbpath hlat ⟨haxis, hclear⟩

theorem goalTol_pos : 0 < goalTol := by norm_num [goalTol]

theorem goal_return_good {design : Design} {s e : Pt} {step : ℚ} {visited : List Pt}
    {newPath : List Pt} {nb : Pt}
    (hGP : GoodPath design s step visited newPath)
    (hlast : newPath.getLast? = some nb)
    (hlen : 2 ≤ newPath.length)
    (hrem : manhattan e nb < goalTol) :
    GoodResult design s e step (newPath.dropLast ++ [e]) := by
  obtain ⟨hne, hhead, hnd, hvis, hlat, hchain⟩ := hGP
  have hQdef : newPath.dropLast ++ [nb] = newPath :=
    List.dropLast_append_getLast? _ (Option.mem_def.mpr hlast)
  have hQne : newPath.dropLast ≠ [] := by
    intro h
    have h2 : newPath.dropLast.length = newPath.length - 1 := List.length_dropLast newPath
    rw [h] at h2
    simp at h2
    omega
  have hQhead : newPath.dropLast.head? = some s := by
    rw [head?_dropLast_of_two_le hlen]
    exact hhead
  have hchain2 : List.Chain' (SegOK design) (newPath.dropLast ++ [nb]) := by
    rw [hQdef]
    exact hchain
  obtain ⟨hchainQ, _, hseam⟩ := List.chain'_append.mp hchain2
  have hQlast : newPath.dropLast.getLast? = some (newPath.dropLast.getLastD (0, 0)) :=
    getLast?_eq_getLastD _ hQne
  have hSegLast : SegOK design (newPath.dropLast.getLastD (0, 0)) nb := by
    refine hseam _ (Option.mem_def.mpr hQlast) _ ?_
    simp
  have hnd2 : (newPath.dropLast ++ [nb]).Nodup := by
    rw [hQdef]
    exact hnd
  have hnbQ : nb ∉ newPath.dropLast := by
    rw [List.nodup_append] at hnd2
    intro hmem
    exact hnd2.2.2 hmem (List.mem_singleton_self _)
  refine ⟨by simp, ?_, List.getLast?_concat _, ?_, ?_⟩
  · cases hQ : newPath.dropLast with
    | nil => exact absurd hQ hQne
    | cons a t =>
      rw [hQ] at hQhead
      simpa using hQhead
  · rw [List.chain'_append]
    refine ⟨List.Chain'.imp (fun a b hab => Or.inl hab.2) hchainQ,
      List.chain'_singleton _, ?_⟩
    intro x hx y hy
    have hx' : x = newPath.dropLast.getLastD (0, 0) := by
      rw [Option.mem_def, hQlast] at hx
      exact (Option.some_injective _ hx).symm
    have hy' : y = e := by
      rw [Option.mem_def] at hy
      simp only [List.head?_cons] at hy
      exact (Option.some_injective _ hy).symm
    rw [hx', hy']
    exact Or.inr ⟨nb, hSegLast.2, hrem⟩
  · intro hstep
    have hstep0 : 0 < step := by
      have := goalTol_pos
      linarith
    rw [List.nodup_append]
    refine ⟨hnd.sublist (List.dropLast_sublist newPath), List.nodup_singleton _, ?_⟩
    intro p hp hpe
    rw [List.mem_singleton] at hpe
    subst hpe
    have hpmem : p ∈ newPath := (List.dropLast_sublist newPath).subset hp
    have hpnb : p ≠ nb := fun h => hnbQ (h ▸ hp)
    have hplat := hlat p hpmem
    have hnblat : onLattice s step nb := by
      refine hlat nb ?_
      rw [← hQdef]
      exact List.mem_append_right _ (List.mem_singleton_self _)
    have hsep := lattice_separation hstep0 hplat hnblat hpnb
    have htol := goalTol_pos
    linarith

theorem stepNeighbors_spec {design : Design} {s e : Pt} {step g : ℚ} {path : List Pt} :
    ∀ (nbs : List Pt) (st : AState),
      GoodSt design s step st →
      GoodPath design s step st.visited path →
      (∀ nb ∈ nbs, no_obstacles design (path.getLastD (0, 0)) nb = true ∧
        ((path.getLastD (0, 0)).1 = nb.1 ∨ (path.getLastD (0, 0)).2 = nb.2) ∧
        onLattice s step nb) →
      (∀ done, stepNeighbors design e step g path nbs st = Sum.inl done →
        GoodResult design s e step done) ∧
      (∀ st', stepNeighbors design e step g path nbs st = Sum.inr st' →
        GoodSt design s step st' ∧ ∀ p ∈ st.visited, p ∈ st'.visited) := by
  intro nbs
  induction nbs with
  | nil =>
    intro st hSt hPath hNbs
    constructor
    · intro done hdone
      simp [stepNeighbors] at hdone
    · intro st' hst'
      simp only [stepNeighbors] at hst'
      obtain rfl : st = st' := by
        cases hst'
        rfl
      exact ⟨hSt, fun p hp => hp⟩
  | cons nb rest ih =>
    intro st hSt hPath hNbs
    have hNb := hNbs nb (List.mem_cons_self nb rest)
    have hRest : ∀ x ∈ rest, no_obstacles design (path.getLastD (0, 0)) x = true ∧
        ((path.getLastD (0, 0)).1 = x.1 ∨ (path.getLastD (0, 0)).2 = x.2) ∧
        onLattice s step x :=
      fun x hx => hNbs x (List.mem_cons_of_mem nb hx)
    by_cases hv : nb ∈ st.visited
    · have heq : stepNeighbors design e step g path (nb :: rest) st =
          stepNeighbors design e step g path rest st := by
        simp only [stepNeighbors, if_pos hv]
      rw [heq]
      exact ih st hSt hPath hRest
    · have hNew := newPath_good hPath hNb.1 hNb.2.1 hNb.2.2 hv _ rfl
      by_cases hgoal : manhattan e nb < goalTol
      · have heq : stepNeighbors design e step g path (nb :: rest) st =
            Sum.inl ((if 1 < path.length ∧ collinearExtend path nb = true
              then path.dropLast ++ [nb] else path ++ [nb]).dropLast ++ [e]) := by
          simp only [stepNeighbors, if_neg hv, if_pos hgoal]
        rw [heq]
        constructor
        · intro done hdone
          obtain rfl : _ = done := by
            cases hdone
            rfl
          exact goal_return_good hNew.1 hNew.2.1 hNew.2.2 hgoal
        · intro st' hst'
          cases hst'
      · set newPath := if 1 < path.length ∧ collinearExtend path nb = true
          then path.dropLast ++ [nb] else path ++ [nb] with hnp
        set key : Key := (g + step + manhattan e nb, nb.1, nb.2) with hkey
        set st2 : AState := ⟨st.heap ++ [key], (key, (g + step, newPath)) :: st.pathmap,
          st.visited ++ [nb]⟩ with hst2
        have heq : stepNeighbors design e step g path (nb :: rest) st =
            stepNeighbors design e step g path rest st2 := by
          simp only [stepNeighbors, if_neg hv, if_neg hgoal]
        rw [heq]
        have hmono : ∀ p ∈ st.visited, p ∈ st2.visited := by
          intro p hp
          exact List.mem_append_left _ hp
        have hSt2 : GoodSt design s step st2 := by
          intro k' g' path' hlk
          rw [hst2] at hlk
          simp only [] at hlk
          rw [lookupPath_cons] at hlk
          by_cases hk : key = k'
          · rw [if_pos hk] at hlk
            obtain ⟨h1, h2⟩ : g + step = g' ∧ newPath = path' := by
              cases hlk
              exact ⟨rfl, rfl⟩
            rw [← h2]
            exact hNew.1
          · rw [if_neg hk] at hlk
            exact GoodPath.mono (hSt k' g' path' hlk) hmono
        have hPath2 : GoodPath design s step st2.visited path :=
          GoodPath.mono hPath hmono
        obtain ⟨ihl, ihr⟩ := ih st2 hSt2 hPath2 hRest
        refine ⟨ihl, ?_⟩
        intro st' hst'
        obtain ⟨hg, hsub⟩ := ihr st' hst'
        exact ⟨hg, fun p hp => hsub p (hmono p hp)⟩

theorem astarLoop_spec {design : Design} {sd s e : Pt} {step : ℚ} :
    ∀ (fuel : Nat) (st : AState), GoodSt design s step st →
      ∀ out, astarLoop design sd e step fuel st = some out →
        out = [] ∨ GoodResult design s e step out := by
  intro fuel
  induction fuel with
  | zero =>
    intro st hSt out hout
    simp [astarLoop] at hout
  | succ n ih =>
    intro st hSt out hout
    cases hpop : popMin st.heap with
    | none =>
      simp only [astarLoop, hpop] at hout
      obtain rfl : ([] : List Pt) = out := by
        cases hout
        rfl
      exact Or.inl rfl
    | some kp =>
      obtain ⟨key, heap'⟩ := kp
      cases hlk : lookupPath st.pathmap key with
      | none =>
        simp only [astarLoop, hpop, hlk] at hout
        exact Option.noConfusion hout
      | some gp =>
        obtain ⟨g, path⟩ := gp
        have hPath : GoodPath design s step st.visited path := hSt key g path hlk
        have hcur_mem : path.getLastD (0, 0) ∈ path := getLastD_mem _ hPath.1
        have hcur_lat : onLattice s step (path.getLastD (0, 0)) :=
          hPath.2.2.2.2.1 _ hcur_mem
        have hNbs : ∀ nb ∈ neighborsOf design (pathDirection sd path)
            (path.getLastD (0, 0)) step,
            no_obstacles design (path.getLastD (0, 0)) nb = true ∧
            ((path.getLastD (0, 0)).1 = nb.1 ∨ (path.getLastD (0, 0)).2 = nb.2) ∧
            onLattice s step nb := by
          intro nb hnb
          obtain ⟨h1, h2, h3⟩ := neighbor_props hnb
          exact ⟨h1, h2, h3 s hcur_lat⟩
        have hSt' : GoodSt design s step ⟨heap', st.pathmap, st.visited⟩ := by
          intro k' g' p' hl
          exact hSt k' g' p' hl
        obtain ⟨specl, specr⟩ := stepNeighbors_spec
          (neighborsOf design (pathDirection sd path) (path.getLastD (0, 0)) step)
          ⟨heap', st.pathmap, st.visited⟩ hSt' hPath hNbs
        cases hsn : stepNeighbors design e step g path
            (neighborsOf design (pathDirection sd path) (path.getLastD (0, 0)) step)
            ⟨heap', st.pathmap, st.visited⟩ with
        | inl done =>
          simp only [astarLoop, hpop, hlk, hsn] at hout
          have hde : done = out := by
            cases hout
            rfl
          subst hde
          exact Or.inr (specl done hsn)
        | inr st' =>
          simp only [astarLoop, hpop, hlk, hsn] at hout
          exact ih st' (specr st' hsn).1 out hout

theorem getpts_astar_spec {design : Design} {sd s e : Pt} {step : ℚ} {fuel : Nat}
    {out : List Pt} (h : getpts_astar design sd s e step fuel = some out) :
    out = [] ∨ GoodResult design s e step out := by
  simp only [getpts_astar] at h
  have hinit : GoodSt design s step
      ⟨[(manhattan e s, s.1, s.2)], [((manhattan e s, s.1, s.2), (manhattan e s, [s]))],
        [s]⟩ := by
    intro k g path hlk
    simp only [] at hlk
    rw [lookupPath_cons] at hlk
    by_cases hk : (manhattan e s, s.1, s.2) = k
    · rw [if_pos hk] at hlk
      obtain ⟨h1, h2⟩ : manhattan e s = g ∧ [s] = path := by
        cases hlk
        exact ⟨rfl, rfl⟩
      rw [← h2]
      refine ⟨by simp, by simp, by simp, by simp, ?_, by simp⟩
      intro p hp
      rw [List.mem_singleton] at hp
      exact ⟨0, 0, by simp [hp], by simp [hp]⟩
    · rw [if_neg hk] at hlk
      simp [lookupPath] at hlk
  exact astarLoop_spec fuel _ hinit out h

/-! ### Composer-level lemmas -/

theorem tail_append_of_ne_nil {α : Type} {l1 l2 : List α} (h : l1 ≠ []) :
    (l1 ++ l2).tail = l1.tail ++ l2 := by
  cases l1 with
  | nil => exact absurd rfl h
  | cons a t => simp

theorem tail_getLast? {α : Type} {l : List α} (h : l.tail ≠ []) :
    l.tail.getLast? = l.getLast? := by
  cases l with
  | nil => simp at h
  | cons a t =>
    cases t with
    | nil => simp at h
    | cons b t' => simp [List.getLast?_cons_cons]

theorem tailPt_tail {l : List Pt} (h : l.tail ≠ []) : tailPt l.tail = tailPt l := by
  simp only [tailPt, List.getLastD_eq_getLast?]
  rw [tail_getLast? h]

theorem tailPt_append {pts l : List Pt} (h : l ≠ []) : tailPt (pts ++ l) = tailPt l := by
  simp only [tailPt, List.getLastD_eq_getLast?]
  rw [List.getLast?_append_of_ne_nil _ h]

theorem tailPt_of_getLast? {l : List Pt} {x : Pt} (h : l.getLast? = some x) :
    tailPt l = x := by
  have hne : l ≠ [] := by
    intro h0
    rw [h0] at h
    simp at h
  have h2 := getLast?_eq_getLastD (0, 0) hne
  rw [h] at h2
  exact (Option.some_injective _ h2.symm)

theorem head?_eq_cons {α : Type} {l : List α} {a : α} (h : l.head? = some a) :
    l = a :: l.tail := by
  cases l with
  | nil => simp at h
  | cons b t =>
    simp only [List.head?_cons] at h
    have hb : b = a := Option.some_injective _ h
    subst hb
    rfl

theorem processTarget_relR {design : Design} {step : ℚ} {fuel : Nat} {pts : List Pt}
    {coord : Pt} {pts2 : List Pt}
    (h : processTarget design step fuel pts coord = some pts2) :
    pts2 = pts ∨ ∃ hp : List Pt, hp ≠ [] ∧ hp.head? = some (tailPt pts) ∧
      hp.getLast? = some coord ∧ List.Chain' (RelR design) hp ∧ pts2 = pts ++ hp.tail := by
  simp only [processTarget] at h
  by_cases he : (getpts_simple design (psub coord (tailPt pts)) (tailPt pts) coord).isEmpty
  · rw [if_pos he] at h
    cases ha : getpts_astar design (psub coord (tailPt pts)) (tailPt pts) coord step fuel with
    | none =>
      rw [ha] at h
      exact Option.noConfusion h
    | some ap =>
      rw [ha] at h
      have hpts2 : pts2 = pts ++ ap.tail := by
        cases h
        rfl
      rcases getpts_astar_spec ha with rfl | hgood
      · left
        simpa using hpts2
      · right
        exact ⟨ap, hgood.1, hgood.2.1, hgood.2.2.1, hgood.2.2.2.1, hpts2⟩
  · rw [if_neg he] at h
    have hpts2 : pts2 = pts ++ (getpts_simple design (psub coord (tailPt pts))
        (tailPt pts) coord).tail := by
      cases h
      rfl
    have hne : getpts_simple design (psub coord (tailPt pts)) (tailPt pts) coord ≠ [] := by
      intro h0
      rw [h0] at he
      simp at he
    right
    refine ⟨getpts_simple design (psub coord (tailPt pts)) (tailPt pts) coord,
      hne, ?_, ?_, ?_, hpts2⟩
    · rcases getpts_simple_head design (psub coord (tailPt pts)) (tailPt pts) coord with
        h0 | h0
      · exact absurd h0 hne
      · exact h0
    · rcases getpts_simple_last design (psub coord (tailPt pts)) (tailPt pts) coord with
        h0 | h0
      · exact absurd h0 hne
      · exact h0
    · exact List.Chain'.imp (fun a b hab => Or.inl hab)
        (getpts_simple_chain_clear design (psub coord (tailPt pts)) (tailPt pts) coord)

theorem hop_chain_append {R : Pt → Pt → Prop} {pts hp : List Pt}
    (hptsne : pts ≠ []) (hchain : List.Chain' R pts.tail)
    (hpne : hp ≠ []) (hphead : hp.head? = some (tailPt pts))
    (hpchain : List.Chain' R hp) :
    List.Chain' R (pts ++ hp.tail).tail := by
  rw [tail_append_of_ne_nil hptsne]
  rw [List.chain'_append]
  refine ⟨hchain, (List.Chain'.tail hpchain), ?_⟩
  intro x hx y hy
  have htne : pts.tail ≠ [] := by
    intro h0
    rw [h0] at hx
    simp at hx
  have hx' : x = tailPt pts := by
    rw [Option.mem_def] at hx
    rw [tail_getLast? htne] at hx
    exact (tailPt_of_getLast? hx).symm
  have hsplit := head?_eq_cons hphead
  rw [hsplit, List.chain'_cons'] at hpchain
  rw [hx']
  exact hpchain.1 y hy

theorem hop_chain_full {R : Pt → Pt → Prop} {pts hp : List Pt}
    (hptsne : pts ≠ []) (hchain : List.Chain' R pts)
    (hpne : hp ≠ []) (hphead : hp.head? = some (tailPt pts))
    (hpchain : List.Chain' R hp) :
    List.Chain' R (pts ++ hp.tail) := by
  rw [List.chain'_append]
  refine ⟨hchain, (List.Chain'.tail hpchain), ?_⟩
  intro x hx y hy
  have hx' : x = tailPt pts := by
    rw [Option.mem_def] at hx
    exact (tailPt_of_getLast? hx).symm
  have hsplit := head?_eq_cons hphead
  rw [hsplit, List.chain'_cons'] at hpchain
  rw [hx']
  exact hpchain.1 y hy

theorem foldlM_relR {design : Design} {step : ℚ} {fuel : Nat} :
    ∀ (ts : List Pt) (pts : List Pt), pts ≠ [] →
      List.Chain' (RelR design) pts.tail →
      ∀ out, List.foldlM (processTarget design step fuel) pts ts = some out →
        out ≠ [] ∧ List.Chain' (RelR design) out.tail := by
  intro ts
  induction ts with
  | nil =>
    intro pts h1 h2 out hout
    simp only [List.foldlM_nil] at hout
    obtain rfl : pts = out := by
      cases hout
      rfl
    exact ⟨h1, h2⟩
  | cons t ts ih =>
    intro pts h1 h2 out hout
    rw [List.foldlM_cons] at hout
    cases hpt : processTarget design step fuel pts t with
    | none =>
      rw [hpt] at hout
      exact Option.noConfusion hout
    | some pts2 =>
      rw [hpt] at hout
      simp only [Option.bind_eq_bind, Option.some_bind] at hout
      rcases processTarget_relR hpt with heq | ⟨hp, hpne, hphead, _, hpchain, hpdef⟩
      · subst heq
        exact ih _ h1 h2 out hout
      · subst hpdef
        refine ih (pts ++ hp.tail) (by simp [h1]) ?_ out hout
        exact hop_chain_append h1 h2 hpne hphead hpchain

theorem makePts_core {c : MakeCfg} {pts : List Pt} (h : makePts c = some pts) :
    ∃ core, List.foldlM (processTarget c.design c.step c.fuel) [c.m1, leadinPt c]
        (targetsOf c) = some core ∧ pts = core ++ [c.m2] := by
  simp only [makePts] at h
  rcases Option.map_eq_some'.mp h with ⟨core, hcore, hdef⟩
  exact ⟨core, hcore, hdef.symm⟩

theorem makePts_relR {c : MakeCfg} {pts : List Pt} (h : makePts c = some pts) :
    List.Chain' (RelR c.design) (pts.drop 1).dropLast := by
  obtain ⟨core, hcore, hdef⟩ := makePts_core h
  have hinit : ([c.m1, leadinPt c] : List Pt) ≠ [] := by simp
  have hchain0 : List.Chain' (RelR c.design) ([c.m1, leadinPt c] : List Pt).tail := by
    simp
  obtain ⟨hne, hchain⟩ := foldlM_relR (targetsOf c) _ hinit hchain0 core hcore
  subst hdef
  rw [List.drop_one, tail_append_of_ne_nil hne, List.dropLast_concat]
  exact hchain

theorem processTarget_ne {design : Design} {step : ℚ} {fuel : Nat} {pts : List Pt}
    {coord : Pt} {pts2 : List Pt}
    (hstep : 2 * goalTol < step)
    (h : processTarget design step fuel pts coord = some pts2)
    (hne : tailPt pts ≠ coord) :
    pts2 = pts ∨ ∃ hp : List Pt, hp ≠ [] ∧ hp.head? = some (tailPt pts) ∧
      hp.getLast? = some coord ∧ List.Chain' (fun x y : Pt => x ≠ y) hp ∧
      pts2 = pts ++ hp.tail := by
  simp only [processTarget] at h
  by_cases he : (getpts_simple design (psub coord (tailPt pts)) (tailPt pts) coord).isEmpty
  · rw [if_pos he] at h
    cases ha : getpts_astar design (psub coord (tailPt pts)) (tailPt pts) coord step fuel with
    | none =>
      rw [ha] at h
      exact Option.noConfusion h
    | some ap =>
      rw [ha] at h
      have hpts2 : pts2 = pts ++ ap.tail := by
        cases h
        rfl
      rcases getpts_astar_spec ha with rfl | hgood
      · left
        simpa using hpts2
      · right
        refine ⟨ap, hgood.1, hgood.2.1, hgood.2.2.1, ?_, hpts2⟩
        exact List.Pairwise.chain' (hgood.2.2.2.2 hstep)
  · rw [if_neg he] at h
    have hpts2 : pts2 = pts ++ (getpts_simple design (psub coord (tailPt pts))
        (tailPt pts) coord).tail := by
      cases h
      rfl
    have hnonempty : getpts_simple design (psub coord (tailPt pts)) (tailPt pts) coord
        ≠ [] := by
      intro h0
      rw [h0] at he
      simp at he
    right
    refine ⟨getpts_simple design (psub coord (tailPt pts)) (tailPt pts) coord,
      hnonempty, ?_, ?_, ?_, hpts2⟩
    · rcases getpts_simple_head design (psub coord (tailPt pts)) (tailPt pts) coord with
        h0 | h0
      · exact absurd h0 hnonempty
      · exact h0
    · rcases getpts_simple_last design (psub coord (tailPt pts)) (tailPt pts) coord with
        h0 | h0
      · exact absurd h0 hnonempty
      · exact h0
    · exact getpts_simple_chain_ne design (psub coord (tailPt pts)) (tailPt pts) coord hne

theorem foldlM_ne {design : Design} {step : ℚ} {fuel : Nat}
    (hstep : 2 * goalTol < step) :
    ∀ (ts : List Pt) (pts seen : List Pt),
      pts ≠ [] → List.Chain' (fun x y : Pt => x ≠ y) pts →
      tailPt pts ∈ seen →
      (∀ t ∈ ts, t ∉ seen) → ts.Nodup →
      ∀ out, List.foldlM (processTarget design step fuel) pts ts = some out →
        out ≠ [] ∧ List.Chain' (fun x y : Pt => x ≠ y) out ∧
          (tailPt out ∈ seen ∨ tailPt out ∈ ts) := by
  intro ts
  induction ts with
  | nil =>
    intro pts seen h1 h2 h3 _ _ out hout
    simp only [List.foldlM_nil] at hout
    obtain rfl : pts = out := by
      cases hout
      rfl
    exact ⟨h1, h2, Or.inl h3⟩
  | cons t ts ih =>
    intro pts seen h1 h2 h3 hfresh hnodup out hout
    rw [List.foldlM_cons] at hout
    cases hpt : processTarget design step fuel pts t with
    | none =>
      rw [hpt] at hout
      exact Option.noConfusion hout
    | some pts2 =>
      rw [hpt] at hout
      simp only [Option.bind_eq_bind, Option.some_bind] at hout
      have htailne : tailPt pts ≠ t := by
        intro hc
        exact hfresh t (List.mem_cons_self t ts) (hc ▸ h3)
      rcases processTarget_ne hstep hpt htailne with heq | ⟨hp, hpne, hphead, hplast, hpchain, hpdef⟩
      · subst heq
        obtain ⟨o1, o2, o3⟩ := ih _ seen h1 h2 h3
          (fun x hx => hfresh x (List.mem_cons_of_mem t hx)) (List.Nodup.of_cons hnodup)
          out hout
        refine ⟨o1, o2, ?_⟩
        rcases o3 with o3 | o3
        · exact Or.inl o3
        · exact Or.inr (List.mem_cons_of_mem t o3)
      · subst hpdef
        have hptail : hp.tail ≠ [] := by
          intro h0
          have hsplit := head?_eq_cons hphead
          rw [h0] at hsplit
          rw [hsplit] at hplast
          simp at hplast
          exact htailne hplast
        have htail2 : tailPt (pts ++ hp.tail) = t := by
          rw [tailPt_append hptail, tailPt_tail hptail, tailPt_of_getLast? hplast]
        obtain ⟨o1, o2, o3⟩ := ih (pts ++ hp.tail) (t :: seen) (by simp [h1])
          (hop_chain_full h1 h2 hpne hphead hpchain)
          (by rw [htail2]; exact List.mem_cons_self t seen)
          (fun x hx => by
            intro hmem
            rcases List.mem_cons.mp hmem with rfl | hmem
            · rw [List.nodup_cons] at hnodup
              exact hnodup.1 hx
            · exact hfresh x (List.mem_cons_of_mem _ hx) hmem)
          (List.Nodup.of_cons hnodup) out hout
        refine ⟨o1, o2, ?_⟩
        rcases o3 with o3 | o3
        · rcases List.mem_cons.mp o3 with rfl | o3
          · exact Or.inr (List.mem_cons_self _ ts)
          · exact Or.inl o3
        · exact Or.inr (List.mem_cons_of_mem t o3)

theorem makePts_ne {c : MakeCfg} {pts : List Pt} (h : makePts c = some pts)
    (hstep : 2 * goalTol < c.step)
    (hm1 : c.m1 ≠ leadinPt c)
    (hnodup : (leadinPt c :: targetsOf c).Nodup)
    (hm2 : c.m2 ∉ leadinPt c :: targetsOf c) :
    List.Chain' (fun x y : Pt => x ≠ y) pts := by
  obtain ⟨core, hcore, hdef⟩ := makePts_core h
  have hinit : ([c.m1, leadinPt c] : List Pt) ≠ [] := by simp
  have hchain0 : List.Chain' (fun x y : Pt => x ≠ y) ([c.m1, leadinPt c] : List Pt) :=
    List.chain'_pair.mpr hm1
  have htail0 : tailPt [c.m1, leadinPt c] ∈ [leadinPt c] := by
    simp [tailPt]
  rw [List.nodup_cons] at hnodup
  have hfresh : ∀ t ∈ targetsOf c, t ∉ [leadinPt c] := by
    intro t ht hmem
    rw [List.mem_singleton] at hmem
    exact hnodup.1 (hmem ▸ ht)
  obtain ⟨o1, o2, o3⟩ := foldlM_ne hstep (targetsOf c) _ [leadinPt c] hinit hchain0
    htail0 hfresh hnodup.2 core hcore
  subst hdef
  rw [List.chain'_append]
  refine ⟨o2, List.chain'_singleton _, ?_⟩
  intro x hx y hy
  have hx' : x = tailPt core := by
    rw [Option.mem_def] at hx
    exact (tailPt_of_getLast? hx).symm
  have hy' : y = c.m2 := by
    rw [Option.mem_def] at hy
    simp only [List.head?_cons] at hy
    exact (Option.some_injective _ hy).symm
  rw [hx', hy']
  intro hc
  apply hm2
  rw [← hc]
  rcases o3 with o3 | o3
  · rw [List.mem_singleton] at o3
    rw [o3]
    exact List.mem_cons_self _ _
  · exact List.mem_cons_of_mem _ o3

/-! ### Division safety of the geometry kernel -/

theorem overlappingChecked_eq (a b c d : Pt) :
    overlappingChecked a b c d = some (overlapping a b c d) := by
  simp only [overlapping, overlappingChecked]
  by_cases h1 : a.1 = b.1 ∧ c.1 = d.1
  · rw [if_pos h1, if_pos h1]
    by_cases h2 : b.1 = c.1
    · rw [if_pos h2, if_pos h2]
    · rw [if_neg h2, if_neg h2]
  · rw [if_neg h1, if_neg h1]
    by_cases h2 : a.1 = b.1 ∨ c.1 = d.1
    · rw [if_pos h2, if_pos h2]
      by_cases h3 : c.1 = d.1
      · have hx : a.1 ≠ b.1 := fun h => h1 ⟨h, h3⟩
        have hden : b.1 - a.1 ≠ 0 := sub_ne_zero.mpr (Ne.symm hx)
        simp [divQ, hden, if_pos h3]
      · have hden : d.1 - c.1 ≠ 0 := sub_ne_zero.mpr (Ne.symm h3)
        simp [divQ, hden, if_neg h3]
    · rw [if_neg h2, if_neg h2]
      push_neg at h2
      have hx0 : b.1 - a.1 ≠ 0 := sub_ne_zero.mpr (Ne.symm h2.1)
      have hx1 : d.1 - c.1 ≠ 0 := sub_ne_zero.mpr (Ne.symm h2.2)
      by_cases h3 : (d.1 - c.1) * (b.2 - a.2) = (b.1 - a.1) * (d.2 - c.2)
      · simp only [divQ, if_neg hx0, if_neg hx1, Option.bind_eq_bind, Option.some_bind,
          if_pos h3]
        split_ifs <;> rfl
      · have hm : (b.2 - a.2) / (b.1 - a.1) - (d.2 - c.2) / (d.1 - c.1) ≠ 0 := by
          rw [sub_ne_zero]
          intro hEq
          apply h3
          rw [div_eq_div_iff hx0 hx1] at hEq
          linear_combination hEq
        simp only [divQ, if_neg hx0, if_neg hx1, Option.bind_eq_bind, Option.some_bind,
          if_neg h3, if_neg hm]

theorem pdot_self_nonneg (a : Pt) : 0 ≤ pdot a a := by
  simp only [pdot]
  have h1 := mul_self_nonneg a.1
  have h2 := mul_self_nonneg a.2
  linarith

/-! ### Claim theorems -/

/-- Claim C1: the spec states that for two vertical segments the predicate
returns true iff they share an x-coordinate and their closed y-intervals
intersect.  The code disagrees: for the vertical segments from (0,0) to
(0,1) and from (0,2) to (0,3) — same x, disjoint y-intervals [0,1] and
[2,3] — `overlapping` returns `true`, because line 29 compares against
`max(y0_start, y1_end)` instead of `max(y0_start, y0_end)`. -/
theorem C1_vertical_disjoint_reports_true :
    overlapping ((0 : ℚ), (0 : ℚ)) (0, 1) (0, 2) (0, 3) = true ∧
      max (0 : ℚ) 1 < min (2 : ℚ) 3 := by
  constructor
  · norm_num [overlapping]
  · norm_num

/-- Claim C2: the spec states `overlapping` is symmetric for non-degenerate
segment pairs.  The code disagrees: for the distinct-endpoint vertical
segments ab from (0,0) to (0,1) and cd from (0,4) to (0,5),
`overlapping(a,b,c,d)` is true while `overlapping(c,d,a,b)` is false —
the same line-29 transcription slip breaks the symmetry of the
vertical-interval test. -/
theorem C2_overlapping_not_symmetric :
    overlapping ((0 : ℚ), (0 : ℚ)) (0, 1) (0, 4) (0, 5) = true ∧
      overlapping ((0 : ℚ), (4 : ℚ)) (0, 5) (0, 0) (0, 1) = false := by
  constructor
  · norm_num [overlapping]
  · norm_num [overlapping]

/-- Claim C6 (confirmed): in every A* expansion step, a neighbor is
generated only at `step_size` along one of the four axis-aligned unit
directions from the current point, and only when its displacement has
non-negative dot product with the current travel direction (the direction
`astarLoop` passes to `neighborsOf`, namely `pathDirection` of the popped
path); neighbors with strictly negative dot product are never expanded. -/
theorem C6_neighbors_axis_no_backtrack (design : Design) (direction curpt : Pt)
    (step : ℚ) (nb : Pt) (h : nb ∈ neighborsOf design direction curpt step) :
    ∃ disp ∈ cardinalDirs, 0 ≤ pdot disp direction ∧
      nb = padd curpt (pscale step disp) := by
  obtain ⟨disp, h1, h2, h3, _⟩ := neighborsOf_spec h
  exact ⟨disp, h1, h2, h3⟩

/-- Witness for C6 at a concrete expansion: from (0,0) with direction
(1,0) and step 1, the point (1,0) is generated, and the theorem yields its
cardinal displacement with non-negative dot product. -/
theorem C6_witness :
    ((1 : ℚ), (0 : ℚ)) ∈ neighborsOf [] (1, 0) (0, 0) 1 ∧
      ∃ disp ∈ cardinalDirs, 0 ≤ pdot disp ((1 : ℚ), (0 : ℚ)) ∧
        ((1 : ℚ), (0 : ℚ)) = padd (0, 0) (pscale 1 disp) := by
  have hlist : neighborsOf [] ((1 : ℚ), (0 : ℚ)) (0, 0) 1 =
      [(0, 1), (0, -1), (1, 0)] := by
    norm_num [neighborsOf, cardinalDirs, pdot, padd, pscale, no_obstacles,
      List.filterMap_cons]
  have hmem : ((1 : ℚ), (0 : ℚ)) ∈ neighborsOf [] (1, 0) (0, 0) 1 := by
    rw [hlist]
    norm_num
  exact ⟨hmem, C6_neighbors_axis_no_backtrack [] (1, 0) (0, 0) 1 (1, 0) hmem⟩

/-- Claim C7: the spec states `getpts_simple` returns empty whenever the
dot product of the start direction with (end - start) is strictly
negative, and returns [start, end] whenever start and end share a
coordinate and the direct segment is clear.  The second half fails when
both conditions apply: with direction (0,-1), start (0,0), end (0,1) the
points share an x-coordinate and the direct segment is clear of the empty
design, yet the result is [] (the negative dot product short-circuits
everything). -/
theorem C7_counterexample :
    pdot ((0 : ℚ), (-1 : ℚ)) (psub ((0 : ℚ), (1 : ℚ)) ((0 : ℚ), (0 : ℚ))) < 0 ∧
    ((0 : ℚ), (0 : ℚ)).1 = ((0 : ℚ), (1 : ℚ)).1 ∧
    no_obstacles [] ((0 : ℚ), (0 : ℚ)) ((0 : ℚ), (1 : ℚ)) = true ∧
    getpts_simple [] ((0 : ℚ), (-1 : ℚ)) (0, 0) (0, 1) = [] ∧
    ([] : List Pt) ≠ [((0 : ℚ), (0 : ℚ)), ((0 : ℚ), (1 : ℚ))] := by
  refine ⟨by norm_num [pdot, psub], by norm_num, by norm_num [no_obstacles], ?_, by simp⟩
  norm_num [getpts_simple, pdot, psub, no_obstacles]

/-- Claim C7 as amended: `getpts_simple` returns the empty result whenever
the dot product of start_direction and (end - start) is strictly negative,
and returns the 2-point route [start, end] whenever that dot product is
non-negative, start and end share an x or y coordinate, and the direct
segment passes the clearance test. -/
theorem C7_amended (design : Design) (dir s e : Pt) :
    (pdot dir (psub e s) < 0 → getpts_simple design dir s e = []) ∧
    (0 ≤ pdot dir (psub e s) → (s.1 = e.1 ∨ s.2 = e.2) →
      no_obstacles design s e = true → getpts_simple design dir s e = [s, e]) := by
  constructor
  · intro h
    simp only [getpts_simple]
    rw [if_neg (not_le.mpr h)]
  · intro h1 h2 h3
    simp only [getpts_simple]
    rw [if_pos h1, if_pos ⟨h2, h3⟩]

/-- Witness for the amended C7: both conclusions instantiated on the empty
design with start (0,0) and end (0,1). -/
theorem C7_witness :
    getpts_simple [] ((0 : ℚ), (-1 : ℚ)) (0, 0) (0, 1) = [] ∧
      getpts_simple [] ((0 : ℚ), (1 : ℚ)) (0, 0) (0, 1) =
        [((0 : ℚ), (0 : ℚ)), ((0 : ℚ), (1 : ℚ))] := by
  constructor
  · exact (C7_amended [] ((0 : ℚ), (-1 : ℚ)) (0, 0) (0, 1)).1 (by norm_num [pdot, psub])
  · exact (C7_amended [] ((0 : ℚ), (1 : ℚ)) (0, 0) (0, 1)).2 (by norm_num [pdot, psub])
      (by norm_num) (by norm_num [no_obstacles])

/-- Claim C9 (confirmed): no division in `overlapping` is ever reached
with a zero divisor: the division-guarded variant `overlappingChecked`,
which returns `none` if any division site in the taken branch has a zero
divisor, always succeeds and agrees with `overlapping` on every input. -/
theorem C9_no_division_by_zero (a b c d : Pt) :
    overlappingChecked a b c d = some (overlapping a b c d) :=
  overlappingChecked_eq a b c d

set_option maxHeartbeats 4000000 in
/-- Claim C3: the spec states every emitted route segment — including the
initial lead-in segment and the final segment back to the raw end point —
passes the clearance test.  The code disagrees: `make` never checks the
lead-in segment.  With one obstacle box (-1,-1,1,1) around the start pin
(0,0) and lead-in point (2,0), the emitted route starts with the segment
from (0,0) to (2,0), which fails `no_obstacles`. -/
theorem C3_counterexample :
    makePts ⟨[((-1 : ℚ), (-1 : ℚ), (1 : ℚ), (1 : ℚ))], (0, 0), (1, 0), (10, 0), (-1, 0),
        4, 0, 0, 1, [], 0⟩ = some [(0, 0), (2, 0), (8, 0), (10, 0)] ∧
      no_obstacles [((-1 : ℚ), (-1 : ℚ), (1 : ℚ), (1 : ℚ))] (0, 0) (2, 0) = false := by
  constructor
  · norm_num [makePts, targetsOf, leadinPt, leadoutPt, processTarget, tailPt, getpts_simple,
      padd, pscale, pdot, psub, no_obstacles, overlapping, obstacleEdges, List.foldlM,
      min_def, max_def]
  · norm_num [no_obstacles, overlapping, obstacleEdges, min_def, max_def]

/-- Claim C3 as amended: every segment between consecutive vertices of the
route `self._pts` emitted by `make` passes the clearance test, except the
initial lead-in segment and the final segment back to the raw end point
(both never checked by the code), and with each A*-produced hop's final
goal-snapped segment only guaranteed clear up to replacing its endpoint by
a point within the 10⁻⁸ goal tolerance — the relation `RelR`.  Dropping
the first and last vertex pairs, every remaining adjacent pair satisfies
`RelR`. -/
theorem C3_amended (c : MakeCfg) (pts : List Pt) (h : makePts c = some pts) :
    List.Chain' (RelR c.design) (pts.drop 1).dropLast :=
  makePts_relR h

/-- Witness for the amended C3 at a concrete obstacle-free configuration
whose route is [(0,0), (2,0), (5,0), (6,0)]. -/
theorem C3_witness :
    List.Chain' (RelR ([] : Design))
      (([((0 : ℚ), (0 : ℚ)), ((2 : ℚ), (0 : ℚ)), ((5 : ℚ), (0 : ℚ)),
        ((6 : ℚ), (0 : ℚ))].drop 1).dropLast) :=
  C3_amended ⟨[], (0, 0), (1, 0), (6, 0), (-1, 0), 2, 1, 0, 1, [], 0⟩ _ (by
    norm_num [makePts, targetsOf, leadinPt, leadoutPt, processTarget, tailPt, getpts_simple,
      padd, pscale, pdot, psub, no_obstacles, List.foldlM])

set_option maxHeartbeats 4000000 in
/-- Claim C4: the spec states that when the A* frontier empties before the
goal tolerance is reached, the composer propagates a distinguishable
failure and never returns a truncated route.  The code disagrees: with the
start lead-in point (1,0) walled in by the box (-1,-1,3,1), every hop
attempt fails (`getpts_simple` returns [] and `getpts_astar` exhausts its
frontier and returns []), yet `make` silently appends nothing and returns
the truncated route [(0,0), (1,0), (20,0)] in which the lead-out target
(19,0) never appears. -/
theorem C4_counterexample :
    makePts ⟨[((-1 : ℚ), (-1 : ℚ), (3 : ℚ), (1 : ℚ))], (0, 0), (1, 0), (20, 0), (-1, 0),
        2, 0, 0, 1, [], 3⟩ = some [(0, 0), (1, 0), (20, 0)] ∧
      getpts_astar [((-1 : ℚ), (-1 : ℚ), (3 : ℚ), (1 : ℚ))] ((18 : ℚ), (0 : ℚ)) (1, 0)
        (19, 0) 1 3 = some [] ∧
      ((19 : ℚ), (0 : ℚ)) ∉ [((0 : ℚ), (0 : ℚ)), ((1 : ℚ), (0 : ℚ)), ((20 : ℚ), (0 : ℚ))] := by
  refine ⟨?_, ?_, by norm_num⟩
  · norm_num [makePts, targetsOf, leadinPt, leadoutPt, processTarget, tailPt, getpts_simple,
      getpts_astar, astarLoop, popMin, minKey, lookupPath, pathDirection, neighborsOf,
      cardinalDirs, stepNeighbors, manhattan, padd, pscale, pdot, psub, no_obstacles, goalTol,
      collinearExtend, keyLt, overlapping, obstacleEdges, List.find?, List.foldl,
      List.filterMap, List.erase, List.foldlM, min_def, max_def]
  · norm_num [getpts_astar, astarLoop, popMin, minKey, lookupPath, pathDirection, neighborsOf,
      cardinalDirs, stepNeighbors, manhattan, padd, pscale, pdot, psub, no_obstacles, goalTol,
      collinearExtend, keyLt, overlapping, obstacleEdges, List.find?, List.foldl,
      List.filterMap, List.erase, min_def, max_def]

/-- Claim C4 as amended: when both routers fail for a hop — the direct
router returns [] and the A* search exhausts its frontier and returns [] —
the composer silently leaves the route unchanged and continues; no
distinguishable failure is produced. -/
theorem C4_amended (design : Design) (step : ℚ) (fuel : Nat) (pts : List Pt) (coord : Pt)
    (h1 : getpts_simple design (psub coord (tailPt pts)) (tailPt pts) coord = [])
    (h2 : getpts_astar design (psub coord (tailPt pts)) (tailPt pts) coord step fuel
      = some []) :
    processTarget design step fuel pts coord = some pts := by
  simp only [processTarget, h1, h2, List.isEmpty_nil, if_true]
  simp

set_option maxHeartbeats 4000000 in
/-- Witness for the amended C4 at the walled-in configuration: the hop to
(19,0) from route tail (1,0) leaves the route unchanged. -/
theorem C4_witness :
    processTarget [((-1 : ℚ), (-1 : ℚ), (3 : ℚ), (1 : ℚ))] 1 3
        [((0 : ℚ), (0 : ℚ)), ((1 : ℚ), (0 : ℚ))] (19, 0) =
      some [((0 : ℚ), (0 : ℚ)), ((1 : ℚ), (0 : ℚ))] :=
  C4_amended _ _ _ _ _ (by
    norm_num [tailPt, getpts_simple, padd, pscale, pdot, psub, no_obstacles, overlapping,
      obstacleEdges, min_def, max_def])
    (by
    norm_num [tailPt, getpts_astar, astarLoop, popMin, minKey, lookupPath, pathDirection,
      neighborsOf, cardinalDirs, stepNeighbors, manhattan, padd, pscale, pdot, psub,
      no_obstacles, goalTol, collinearExtend, keyLt, overlapping, obstacleEdges, List.find?,
      List.foldl, List.filterMap, List.erase, min_def, max_def])

/-- Claim C5: the spec states no route returned by getpts_simple,
getpts_astar or make ever contains a zero-length segment.  The code
disagrees for degenerate inputs: with start = end = (0,0) and no
obstacles, `getpts_simple` returns [(0,0), (0,0)], a zero-length
segment. -/
theorem C5_counterexample :
    getpts_simple [] ((1 : ℚ), (0 : ℚ)) (0, 0) (0, 0) = [(0, 0), (0, 0)] ∧
      ¬ List.Chain' (fun x y : Pt => x ≠ y)
        [((0 : ℚ), (0 : ℚ)), ((0 : ℚ), (0 : ℚ))] := by
  constructor
  · norm_num [getpts_simple, pdot, psub, no_obstacles]
  · simp

/-- Claim C5 as amended: routes contain no zero-length segment provided
the degenerate inputs exhibited by the counterexample are excluded: for
getpts_simple, start ≠ end; for getpts_astar, step_size exceeds twice the
goal tolerance (so the goal-snapped endpoint cannot collide with the
previous vertex); and for the composed make route, additionally the hop
seeds are distinct (the lead-in point, anchors and lead-out point are
pairwise distinct, the lead-in offset is nonzero, and the end pin differs
from all hop targets). -/
theorem C5_amended :
    (∀ (design : Design) (dir s e : Pt), s ≠ e →
      List.Chain' (fun x y : Pt => x ≠ y) (getpts_simple design dir s e)) ∧
    (∀ (design : Design) (sd s e : Pt) (step : ℚ) (fuel : Nat) (out : List Pt),
      2 * goalTol < step → getpts_astar design sd s e step fuel = some out →
      List.Chain' (fun x y : Pt => x ≠ y) out) ∧
    (∀ (c : MakeCfg) (pts : List Pt), makePts c = some pts →
      2 * goalTol < c.step → c.m1 ≠ leadinPt c →
      (leadinPt c :: targetsOf c).Nodup → c.m2 ∉ leadinPt c :: targetsOf c →
      List.Chain' (fun x y : Pt => x ≠ y) pts) := by
  refine ⟨getpts_simple_chain_ne, ?_, ?_⟩
  · intro design sd s e step fuel out hstep h
    rcases getpts_astar_spec h with rfl | hgood
    · exact List.chain'_nil
    · exact List.Pairwise.chain' (hgood.2.2.2.2 hstep)
  · intro c pts h hstep hm1 hnodup hm2
    exact makePts_ne h hstep hm1 hnodup hm2

set_option maxHeartbeats 4000000 in
/-- Witness for the amended C5: all three conclusions at concrete inputs —
a direct route, an A*-returned route and a composed make route. -/
theorem C5_witness :
    List.Chain' (fun x y : Pt => x ≠ y) (getpts_simple [] ((1 : ℚ), (0 : ℚ)) (0, 0) (5, 0)) ∧
    List.Chain' (fun x y : Pt => x ≠ y) [((0 : ℚ), (0 : ℚ)), ((1 : ℚ), (0 : ℚ))] ∧
    List.Chain' (fun x y : Pt => x ≠ y)
      [((0 : ℚ), (0 : ℚ)), ((3 / 2 : ℚ), (0 : ℚ)), ((9 / 2 : ℚ), (0 : ℚ)),
        ((5 : ℚ), (0 : ℚ))] := by
  refine ⟨C5_amended.1 [] ((1 : ℚ), (0 : ℚ)) (0, 0) (5, 0) (by norm_num [Prod.ext_iff]),
    C5_amended.2.1 [] (1, 0) (0, 0) (1, 0) 1 1 _ (by norm_num [goalTol]) (by
      norm_num [getpts_astar, astarLoop, popMin, minKey, lookupPath, pathDirection,
        neighborsOf, cardinalDirs, stepNeighbors, manhattan, padd, pscale, pdot, psub,
        no_obstacles, goalTol, collinearExtend, keyLt, List.find?, List.foldl,
        List.filterMap]),
    C5_amended.2.2 ⟨[], (0, 0), (1, 0), (5, 0), (-1, 0), 1, 1, 0, 1, [], 0⟩ _ (by
      norm_num [makePts, targetsOf, leadinPt, leadoutPt, processTarget, tailPt,
        getpts_simple, padd, pscale, pdot, psub, no_obstacles, List.foldlM])
      (by norm_num [goalTol]) (by norm_num [leadinPt, padd, pscale, Prod.ext_iff])
      (by norm_num [leadinPt, targetsOf, leadoutPt, padd, pscale, Prod.mk.injEq])
      (by norm_num [leadinPt, targetsOf, leadoutPt, padd, pscale, Prod.mk.injEq])⟩

/-- Claim C8: the spec states a non-positive step size or negative lead
length is rejected by the composer before any search begins.  The code
disagrees: `make` performs no validation at all — with step_size = 0 and
leadstart = -1 the composer routes normally and returns a full route. -/
theorem C8_counterexample :
    makePts ⟨[], (0, 0), (1, 0), (5, 0), (-1, 0), 1, -1, 0, 0, [], 0⟩
        = some [(0, 0), (-1 / 2, 0), (9 / 2, 0), (5, 0)] ∧
      (0 : ℚ) ≤ 0 ∧ (-1 : ℚ) < 0 := by
  refine ⟨?_, by norm_num, by norm_num⟩
  norm_num [makePts, targetsOf, leadinPt, leadoutPt, processTarget, tailPt, getpts_simple,
    padd, pscale, pdot, psub, no_obstacles, List.foldlM]

/-- Claim C8 as amended: the composer performs no configuration
validation: even with a non-positive step size and a negative lead-in
length, routing proceeds — when the single hop succeeds via
getpts_simple, make returns the full normal route, the invalid values
flowing through unexamined. -/
theorem C8_amended (design : Design) (m1 n1 m2 n2 : Pt) (w ls le2 step : ℚ) (fuel : Nat)
    (hstep : step ≤ 0) (hlead : ls < 0)
    (hshare : (padd m1 (pscale (w / 2 + ls) n1)).1 = (padd m2 (pscale (w / 2 + le2) n2)).1 ∨
      (padd m1 (pscale (w / 2 + ls) n1)).2 = (padd m2 (pscale (w / 2 + le2) n2)).2)
    (hclear : no_obstacles design (padd m1 (pscale (w / 2 + ls) n1))
      (padd m2 (pscale (w / 2 + le2) n2)) = true) :
    makePts ⟨design, m1, n1, m2, n2, w, ls, le2, step, [], fuel⟩ =
      some [m1, padd m1 (pscale (w / 2 + ls) n1), padd m2 (pscale (w / 2 + le2) n2), m2] := by
  have hsimple : getpts_simple design
      (psub (padd m2 (pscale (w / 2 + le2) n2)) (padd m1 (pscale (w / 2 + ls) n1)))
      (padd m1 (pscale (w / 2 + ls) n1)) (padd m2 (pscale (w / 2 + le2) n2)) =
      [padd m1 (pscale (w / 2 + ls) n1), padd m2 (pscale (w / 2 + le2) n2)] := by
    simp only [getpts_simple]
    rw [if_pos (pdot_self_nonneg _), if_pos ⟨hshare, hclear⟩]
  have hpt : processTarget design step fuel [m1, padd m1 (pscale (w / 2 + ls) n1)]
      (padd m2 (pscale (w / 2 + le2) n2)) =
      some [m1, padd m1 (pscale (w / 2 + ls) n1), padd m2 (pscale (w / 2 + le2) n2)] := by
    have htail : tailPt [m1, padd m1 (pscale (w / 2 + ls) n1)] =
        padd m1 (pscale (w / 2 + ls) n1) := rfl
    simp only [processTarget, htail, hsimple]
    simp
  simp only [makePts, targetsOf, leadinPt, leadoutPt, List.nil_append, List.foldlM_cons,
    List.foldlM_nil]
  rw [hpt]
  rfl

/-- Witness for the amended C8: with step_size 0 and leadstart -2 the
composer returns the full route [(0,0), (-1,0), (5,0), (6,0)]. -/
theorem C8_witness :
    makePts ⟨[], (0, 0), (1, 0), (6, 0), (-1, 0), 2, -2, 0, 0, [], 0⟩ =
      some [((0 : ℚ), (0 : ℚ)), ((-1 : ℚ), (0 : ℚ)), ((5 : ℚ), (0 : ℚ)),
        ((6 : ℚ), (0 : ℚ))] := by
  have h := C8_amended [] (0, 0) (1, 0) (6, 0) (-1, 0) 2 (-2) 0 0 0 (by norm_num)
    (by norm_num) (by norm_num [padd, pscale]) (by norm_num [no_obstacles])
  rw [h]
  norm_num [padd, pscale]

/-- Claim C10 (confirmed): for every call in which getpts_astar returns a
path with step_size greater than twice the goal tolerance 10⁻⁸, the
returned path's vertices are pairwise distinct: the visited set admits
each grid coordinate once, compaction only replaces the stored tail, and
the snapped final end point stays at least step − 10⁻⁸ away from every
earlier vertex. -/
theorem C10_astar_pairwise_distinct (design : Design) (sd s e : Pt) (step : ℚ)
    (fuel : Nat) (out : List Pt) (hstep : 2 * goalTol < step)
    (h : getpts_astar design sd s e step fuel = some out) :
    List.Pairwise (fun x y : Pt => x ≠ y) out := by
  rcases getpts_astar_spec h with rfl | hgood
  · simp
  · exact hgood.2.2.2.2 hstep

/-- Witness for C10 at a concrete search reaching (1,0) from (0,0). -/
theorem C10_witness :
    List.Pairwise (fun x y : Pt => x ≠ y) [((0 : ℚ), (0 : ℚ)), ((1 : ℚ), (0 : ℚ))] :=
  C10_astar_pairwise_distinct [] (1, 0) (0, 0) (1, 0) 1 1
    [((0 : ℚ), (0 : ℚ)), ((1 : ℚ), (0 : ℚ))] (by norm_num [goalTol]) (by
    norm_num [getpts_astar, astarLoop, popMin, minKey, lookupPath, pathDirection,
      neighborsOf, cardinalDirs, stepNeighbors, manhattan, padd, pscale, pdot, psub,
      no_obstacles, goalTol, collinearExtend, keyLt, List.find?, List.foldl,
      List.filterMap])

end Pathfinder
